import Mathlib

/-!
# Verification of audacity-project-tools against its specification

Shallow embedding of the core data structures and algorithms of the
AUP3 recovery utility: the chunked byte buffer (`Buffer.cpp` / `WaveFile.h`),
the WAV assembler (`WaveFile.cpp`), the sample-format registry
(`SampleFormat.cpp`), the project model arithmetic and operations
(`ProjectModel.cpp`), the attribute coercion helper (`XMLHandler.h`) and the
binary-XML codec (`BinaryXMLConverter.cpp`).

Byte sequences are modelled as `List Nat` (each entry a value of one byte);
machine integers are `Nat` / `Int` with explicit wrap-around (`% 2^w`)
where the C++ code can overflow.
-/

namespace AudacityTools

/-! ## ChunkedBuffer (`Buffer.h` / `Buffer.cpp`)

`Buffer` stores bytes in 1 MiB chunks (`std::array<uint8_t, BUFFER_SIZE>`),
plus the number of bytes used in the last chunk.  A fresh chunk is
value-initialized, hence zero-filled; the model keeps every chunk at its
full physical length `CHUNK`, with the logical content being the prefix
described by `getSize`. -/

/-- `Buffer::BUFFER_SIZE = 1024 * 1024`. -/
def CHUNK : Nat := 1024 * 1024

/-- The chunk list (`mChunks`) and the used size of the last chunk
(`mLastChunkOffset`). -/
structure Buffer where
  chunks : List (List Nat)
  lastOff : Nat

/-- `Buffer::getSize`. -/
def Buffer.getSize (b : Buffer) : Nat :=
  if b.chunks = [] then 0 else (b.chunks.length - 1) * CHUNK + b.lastOff

/-- A buffer with no chunks (`Buffer` default state / after `reset`). -/
def Buffer.empty : Buffer := ⟨[], 0⟩

/-- Appending one byte: allocate a fresh zero-initialized chunk when the list
is empty or the last chunk is full, then write at `mLastChunkOffset`.
`Buffer::append(const void*, size_t)` performs this via block `memcpy`;
the model appends byte by byte, which produces the same final state. -/
def Buffer.append1 (b : Buffer) (x : Nat) : Buffer :=
  if b.chunks = [] ∨ b.lastOff = CHUNK then
    ⟨b.chunks ++ [[x] ++ List.replicate (CHUNK - 1) 0], 1⟩
  else
    match b.chunks.getLast? with
    | none => b
    | some c =>
      ⟨b.chunks.dropLast ++ [c.take b.lastOff ++ [x] ++ c.drop (b.lastOff + 1)],
        b.lastOff + 1⟩

/-- `Buffer::append(const void* data, size_t size)` for a byte sequence. -/
def Buffer.appendBytes (b : Buffer) (data : List Nat) : Buffer :=
  data.foldl Buffer.append1 b

/-- The copy loop of `Buffer::read`: starting inside a chunk at `off`,
copy `min(BUFFER_SIZE - off, bytesLeft)` bytes out of each chunk in turn. -/
def readLoop : List (List Nat) → Nat → Nat → List Nat
  | _, _, 0 => []
  | [], _, _ => []
  | c :: rest, off, bytesLeft =>
    (c.drop off).take (min (CHUNK - off) bytesLeft) ++
      readLoop rest 0 (bytesLeft - min (CHUNK - off) bytesLeft)

/-- `Buffer::read(void* data, size_t offset, size_t size)`, modelled as the
list of bytes copied to the output (in order).  Returns `[]` (copies
nothing) when `size == 0` or `offset > N`; truncates `size` to `N - offset`
otherwise. -/
def Buffer.read (b : Buffer) (offset size : Nat) : List Nat :=
  if size = 0 then []
  else if offset > b.getSize then []
  else
    readLoop (b.chunks.drop (offset / CHUNK)) (offset % CHUNK)
      (if offset + size > b.getSize then b.getSize - offset else size)

/-- `enum class SampleFormat` with its on-disk codes. -/
inductive SampleFormat where
  | Int16
  | Int24
  | Float32
deriving DecidableEq

/-- The numeric values of the `SampleFormat` enumerators. -/
def SampleFormat.code : SampleFormat → Nat
  | .Int16 => 0x00020001
  | .Int24 => 0x00040001
  | .Float32 => 0x0004000F

/-- `BytesPerSample`. -/
def BytesPerSample : SampleFormat → Nat
  | .Int16 => 2
  | .Int24 => 3
  | .Float32 => 4

/-- `DiskBytesPerSample`. -/
def DiskBytesPerSample : SampleFormat → Nat
  | .Int16 => 2
  | .Int24 => 4
  | .Float32 => 4

/-! ## WAV assembly (`WaveFile.cpp`)

`WaveFile::writeFile` keeps one `Buffer` per channel, computes the largest
channel size, declares `NumChannels * maxSize` bytes of sample data in the
header, and then writes `maxSize / bytesPerSample` interleaved samples.
The per-sample scratch vector `sampleData` persists across loop
iterations; a channel slot is only `memset` to zero when
`bufferSize < offset`, and `Buffer::read` copies however many bytes remain
(possibly none), leaving the rest of the slot untouched. -/

/-- One loop body slot update for a channel (`WaveFile.cpp`, lines
116–128): read `bps` bytes at `offset` into the slot when
`bufferSize >= offset`, otherwise zero the slot.  A short read leaves the
tail of the slot at its previous value. -/
def chSlotUpdate (buf : Buffer) (offset bps : Nat) (old : List Nat) : List Nat :=
  if buf.getSize ≥ offset then
    Buffer.read buf offset bps ++ old.drop (Buffer.read buf offset bps).length
  else
    List.replicate bps 0

/-- The largest channel size (`std::max_element` over `mChannels`). -/
def maxChannelSize (channels : List Buffer) : Nat :=
  (channels.map Buffer.getSize).foldl max 0

/-- The byte count the WAV header declares for the `data` chunk
(`dataSize = mNumChannels * it->getSize()`), as the `uint32_t`
`Subchunk2Size` field. -/
def wavSubchunk2Size (channels : List Buffer) : Nat :=
  (channels.length * maxChannelSize channels) % 2 ^ 32

/-- The bytes `WaveFile::writeFile` writes after the 44-byte header:
`maxSize / bps` interleaved samples, with the persistent `sampleData`
scratch vector carried from one sample to the next. -/
def wavDataBytes (channels : List Buffer) (fmt : SampleFormat) : List Nat :=
  ((List.range (maxChannelSize channels / BytesPerSample fmt)).foldl
    (fun st s =>
      let slots := List.zipWith
        (fun buf old => chSlotUpdate buf (s * BytesPerSample fmt)
          (BytesPerSample fmt) old)
        channels st.2
      (st.1 ++ slots.flatten, slots))
    ([], List.replicate channels.length
      (List.replicate (BytesPerSample fmt) 0))).1

/-- Channel 0: four bytes `1 2 3 4` (two Int16 samples). -/
def wavCh0 : Buffer := Buffer.appendBytes Buffer.empty [1, 2, 3, 4]

/-- Channel 1: two bytes `5 6` (one Int16 sample — shorter than channel 0). -/
def wavCh1 : Buffer := Buffer.appendBytes Buffer.empty [5, 6]

/-- C3: evaluating `WaveFile::writeFile` on a two-channel Int16 file whose
second channel is one sample shorter shows the bug: the header declares
`C·max = 8` data bytes and 8 bytes are written, but the missing position of
channel 1 is filled with the *stale previous sample* `5 6` instead of
zeros, because the guard `bufferSize >= offset` does not zero the slot when
`offset` lands exactly at the end of the shorter channel and `Buffer::read`
then copies nothing. -/
theorem waveFile_stale_padding :
    wavDataBytes [wavCh0, wavCh1] SampleFormat.Int16
        = [1, 2, 5, 6, 3, 4, 5, 6] ∧
      wavSubchunk2Size [wavCh0, wavCh1] = 8 ∧
      wavDataBytes [wavCh0, wavCh1] SampleFormat.Int16
        ≠ [1, 2, 5, 6, 3, 4, 0, 0] := by
  refine ⟨rfl, rfl, ?_⟩
  intro h
  rw [show wavDataBytes [wavCh0, wavCh1] SampleFormat.Int16
      = [1, 2, 5, 6, 3, 4, 5, 6] from rfl] at h
  simp at h

/-! ## Project model: sequences and wave blocks (`ProjectModel.cpp`)

A parsed `WaveBlock` carries `mStart` and `mBlockId` (both `int64_t`); its
owning `Sequence` carries `mNumSamples` (`int64_t`) and the ordered list of
its blocks.  `WaveBlock::getLength` derives a block's length from the next
sibling's start, or from the sequence's sample count for the last block. -/

structure WaveBlockM where
  start : Int
  blockId : Int
deriving DecidableEq

structure SequenceM where
  numSamples : Int
  blocks : List WaveBlockM
deriving DecidableEq

/-- `WaveBlock::getLength` for the block at position `i` of sequence `s`
(`nextBlock < blocksInSequence` selects the sibling-difference branch). -/
def getLength (s : SequenceM) (i : Nat) : Int :=
  match s.blocks.get? i with
  | none => 0
  | some b =>
    match s.blocks.get? (i + 1) with
    | some b' => b'.start - b.start
    | none => s.numSamples - b.start

/-- The sum `Σ_i length(block_i)` over all blocks of a sequence. -/
def sumLengths (s : SequenceM) : Int :=
  ((List.range s.blocks.length).map (getLength s)).sum

/-- The blocks tile `[0, num_samples)`: there is a first block, it starts
at 0, the starts are non-decreasing, and the last block's start does not
pass `num_samples` — so the derived windows partition the interval. -/
def startsSorted : List WaveBlockM → Bool
  | [] => true
  | [_] => true
  | a :: b :: rest => decide (a.start ≤ b.start) && startsSorted (b :: rest)

def tiles (s : SequenceM) : Bool :=
  (s.blocks.head?.map WaveBlockM.start == some 0) &&
    startsSorted s.blocks &&
    (s.blocks.getLast?.all (fun b => decide (b.start ≤ s.numSamples)))

theorem getLength_cons (n : Int) (b : WaveBlockM) (bs : List WaveBlockM)
    (i : Nat) :
    getLength ⟨n, b :: bs⟩ (i + 1) = getLength ⟨n, bs⟩ i := by
  simp [getLength]

/-- Telescoping: for a non-empty block list the length sum always equals
`num_samples` minus the first start, whatever the intermediate starts. -/
theorem sumLengths_eq (n : Int) (b : WaveBlockM) (bs : List WaveBlockM) :
    sumLengths ⟨n, b :: bs⟩ = n - b.start := by
  induction bs generalizing b with
  | nil => simp [sumLengths, List.range_succ, getLength]
  | cons b' bs' ih =>
    have hrange : List.range (b :: b' :: bs').length
        = 0 :: (List.range (b' :: bs').length).map (· + 1) := by
      simp [List.range_succ_eq_map]
    rw [sumLengths, hrange]
    simp only [List.map_cons, List.map_map, List.sum_cons]
    have hmap : ∀ i ∈ List.range (b' :: bs').length,
        (getLength ⟨n, b :: b' :: bs'⟩ ∘ (· + 1)) i
          = getLength ⟨n, b' :: bs'⟩ i := by
      intro i _
      simp only [Function.comp_apply]
      exact getLength_cons n b (b' :: bs') i
    rw [List.map_congr_left hmap]
    have hsum : ((List.range (b' :: bs').length).map
        (getLength ⟨n, b' :: bs'⟩)).sum = n - b'.start := ih b'
    rw [hsum]
    have h0 : getLength ⟨n, b :: b' :: bs'⟩ 0 = b'.start - b.start := by
      simp [getLength]
    rw [h0]
    ring

/-- C5 (counterexample): a sequence with `num_samples = 3` and block starts
`0, 5` has `Σ length = 3 = num_samples`, yet the blocks do not tile
`[0, 3)` (the first window `[0, 5)` overruns it and the second is empty) —
so "sum equals num_samples only when the blocks tile" is false. -/
theorem sumLengths_not_iff_tiles :
    sumLengths ⟨3, [⟨0, 1⟩, ⟨5, 2⟩]⟩
        = SequenceM.numSamples ⟨3, [⟨0, 1⟩, ⟨5, 2⟩]⟩ ∧
      tiles ⟨3, [⟨0, 1⟩, ⟨5, 2⟩]⟩ = false := by
  constructor
  · rw [sumLengths_eq]
    rfl
  · decide

/-- C5 (amended): for a sequence with at least one block, the sum of the
derived block lengths always telescopes to `num_samples` minus the first
block's start; in particular the sum equals `num_samples` whenever the
blocks tile `[0, num_samples)` (which forces the first start to be 0), but
the converse fails (see the counterexample). -/
theorem sumLengths_covered_prefix (s : SequenceM) (b : WaveBlockM)
    (h : s.blocks.head? = some b) :
    sumLengths s = s.numSamples - b.start ∧
      (tiles s = true → sumLengths s = s.numSamples) := by
  obtain ⟨n, blocks⟩ := s
  cases blocks with
  | nil => simp at h
  | cons b0 bs =>
    have hb : b0 = b := by simpa using h
    subst hb
    refine ⟨sumLengths_eq n b0 bs, ?_⟩
    intro ht
    have hstart : b0.start = 0 := by
      simp only [tiles, Bool.and_eq_true, beq_iff_eq] at ht
      have := ht.1.1
      simpa using this
    rw [sumLengths_eq n b0 bs, hstart]
    ring

/-- Witness for C5 at a concrete tiling sequence. -/
theorem sumLengths_covered_prefix_witness :
    (SequenceM.blocks ⟨10, [⟨0, 1⟩, ⟨4, 2⟩]⟩).head? = some ⟨0, 1⟩ ∧
      (sumLengths ⟨10, [⟨0, 1⟩, ⟨4, 2⟩]⟩
          = SequenceM.numSamples ⟨10, [⟨0, 1⟩, ⟨4, 2⟩]⟩ - (0 : Int) ∧
        (tiles ⟨10, [⟨0, 1⟩, ⟨4, 2⟩]⟩ = true →
          sumLengths ⟨10, [⟨0, 1⟩, ⟨4, 2⟩]⟩
            = SequenceM.numSamples ⟨10, [⟨0, 1⟩, ⟨4, 2⟩]⟩)) :=
  ⟨rfl, sumLengths_covered_prefix ⟨10, [⟨0, 1⟩, ⟨4, 2⟩]⟩ ⟨0, 1⟩ rfl⟩

/-! ## extract-clips per-block processing (`AudacityProject::extractClips`)

For each block of each sequence of a clip, the code clamps the block window
`[start, start+length)` to the clip window `[firstSample, lastSample)`
(skipping disjoint blocks), then either appends zeros (silent block) or
reads the `samples` blob.  The clip window endpoints come from
`llrint(trim · rate)` over `double`s; the model takes them as integer
parameters.  The blob guard compares the blob size against
`blockLength * bytesPerSample` — counted from the *start* of the blob and
using the in-memory `BytesPerSample` of the track format — before reading
`blockLength * bytesPerSample` bytes starting at byte offset
`(clampedStart - block.start) * bytesPerSample`. -/

inductive ClipBlockResult where
  | skipped
  | silence (byteCount : Int)
  | readBlob (byteOffset byteCount : Int)
  | truncated
deriving DecidableEq

/-- The body of the block loop of `AudacityProject::extractClips`
(`ProjectModel.cpp`): window intersection, clamping, the silent-block
branch, the "Unexpected blob size" guard, and the blob slice that is read. -/
def extractClipsBlockStep (firstSample lastSample blockStart blockLen
    blockId : Int) (bps : Nat) (blobSize : Int) : ClipBlockResult :=
  if blockStart + blockLen ≤ firstSample ∨ blockStart ≥ lastSample then
    .skipped
  else
    if min (blockStart + blockLen) lastSample - max blockStart firstSample
        ≤ 0 then
      .skipped
    else if blockId < 0 then
      .silence ((min (blockStart + blockLen) lastSample
        - max blockStart firstSample) * bps)
    else if blobSize < (min (blockStart + blockLen) lastSample
        - max blockStart firstSample) * bps then
      .truncated
    else
      .readBlob ((max blockStart firstSample - blockStart) * bps)
        ((min (blockStart + blockLen) lastSample
          - max blockStart firstSample) * bps)

/-- C2: evaluating the extract-clips block step at a concrete failing
input.  Block `[0, 10)` with id 1 in an Int16 sequence, clip window
`[5, 100)`, blob of 12 bytes: the effective window is `[5, 10)`
(5 samples, in-block offset 5), so by the claim the blob must hold at
least `5 · 2 = 10` bytes *counted from byte offset 10* — it holds only 2 —
and `TruncatedBlock` must be raised.  The code instead accepts the blob
(12 ≥ 10 counted from offset 0) and reads bytes `[10, 20)`, past the end
of the 12-byte blob. -/
theorem extractClips_truncation_guard_wrong :
    extractClipsBlockStep 5 100 0 10 1 (BytesPerSample SampleFormat.Int16) 12
        = ClipBlockResult.readBlob 10 10 ∧
      (10 : Int) + 10 > 12 ∧
      (12 : Int) < (5 + 5) * (DiskBytesPerSample SampleFormat.Int16 : Int) := by
  refine ⟨by decide, by decide, by decide⟩

/-! ## validate-blocks (`AudacityProject::validateBlocks`)

For every non-silent block whose id is not already recorded, the code
queries `sampleblocks` for rows with that id; it throws (and the handler
records the id) when a row's `sampleformat` differs from the owning
sequence's format, or when no row exists.  The store is modelled as the
list of `(blockid, sampleformat)` rows. -/

/-- A parsed block as `validateBlocks` sees it: its id and the owning
sequence's format (`block.getParent()->getFormat()`). -/
structure VBlock where
  blockId : Int
  seqFormat : Int
deriving DecidableEq

/-- The block is recorded as invalid: no `sampleblocks` row, or some row
whose format disagrees with the sequence's. -/
def blockInvalid (b : VBlock) (rows : List (Int × Int)) : Bool :=
  (rows.filter (fun r => r.1 = b.blockId)).isEmpty ||
    (rows.filter (fun r => r.1 = b.blockId)).any
      (fun r => decide (r.2 ≠ b.seqFormat))

def validateBlocksGo (rows : List (Int × Int)) :
    List VBlock → List Int → List Int
  | [], acc => acc
  | b :: bs, acc =>
    if b.blockId < 0 then validateBlocksGo rows bs acc
    else if b.blockId ∈ acc then validateBlocksGo rows bs acc
    else if blockInvalid b rows then validateBlocksGo rows bs (acc ++ [b.blockId])
    else validateBlocksGo rows bs acc

/-- `AudacityProject::validateBlocks`, as the list of recorded invalid
block ids in insertion order (the C++ `std::set` is used only through
membership). -/
def validateBlocks (blocks : List VBlock) (rows : List (Int × Int)) :
    List Int :=
  validateBlocksGo rows blocks []

theorem validateBlocksGo_mono (rows : List (Int × Int)) (bs : List VBlock)
    (acc : List Int) (id : Int) (h : id ∈ acc) :
    id ∈ validateBlocksGo rows bs acc := by
  induction bs generalizing acc with
  | nil => simpa [validateBlocksGo] using h
  | cons b bs ih =>
    by_cases h1 : b.blockId < 0
    · simpa [validateBlocksGo, h1] using ih acc h
    by_cases h2 : b.blockId ∈ acc
    · simpa [validateBlocksGo, h1, h2] using ih acc h
    by_cases h3 : blockInvalid b rows
    · simp only [validateBlocksGo, if_neg h1, if_neg h2, if_pos h3]
      exact ih (acc ++ [b.blockId]) (by simp [h])
    · simpa [validateBlocksGo, h1, h2, h3] using ih acc h

theorem validateBlocksGo_mem (rows : List (Int × Int)) (bs : List VBlock)
    (acc : List Int) (id : Int) :
    id ∈ validateBlocksGo rows bs acc ↔
      id ∈ acc ∨ ∃ b ∈ bs, b.blockId = id ∧ ¬ b.blockId < 0 ∧
        blockInvalid b rows = true := by
  induction bs generalizing acc with
  | nil => simp [validateBlocksGo]
  | cons b bs ih =>
    by_cases h1 : b.blockId < 0
    · simp only [validateBlocksGo, if_pos h1, ih]
      constructor
      · rintro (h | h)
        · exact Or.inl h
        · exact Or.inr (by obtain ⟨b', hb', hrest⟩ := h; exact ⟨b', by simp [hb'], hrest⟩)
      · rintro (h | ⟨b', hb', hid, hns, hinv⟩)
        · exact Or.inl h
        · rcases List.mem_cons.mp hb' with rfl | hb'
          · exact absurd h1 hns
          · exact Or.inr ⟨b', hb', hid, hns, hinv⟩
    by_cases h3 : blockInvalid b rows
    · by_cases h2 : b.blockId ∈ acc
      · simp only [validateBlocksGo, if_neg h1, if_pos h2, ih]
        constructor
        · rintro (h | h)
          · exact Or.inl h
          · exact Or.inr (by obtain ⟨b', hb', hrest⟩ := h; exact ⟨b', by simp [hb'], hrest⟩)
        · rintro (h | ⟨b', hb', hid, hns, hinv⟩)
          · exact Or.inl h
          · rcases List.mem_cons.mp hb' with rfl | hb'
            · exact Or.inl (hid ▸ h2)
            · exact Or.inr ⟨b', hb', hid, hns, hinv⟩
      · simp only [validateBlocksGo, if_neg h1, if_neg h2, if_pos h3, ih]
        constructor
        · rintro (h | h)
          · rcases List.mem_append.mp h with h | h
            · exact Or.inl h
            · exact Or.inr ⟨b, by simp, (List.mem_singleton.mp h).symm, h1, h3⟩
          · exact Or.inr (by obtain ⟨b', hb', hrest⟩ := h; exact ⟨b', by simp [hb'], hrest⟩)
        · rintro (h | ⟨b', hb', hid, hns, hinv⟩)
          · exact Or.inl (List.mem_append.mpr (Or.inl h))
          · rcases List.mem_cons.mp hb' with rfl | hb'
            · exact Or.inl (List.mem_append.mpr (Or.inr (by simp [hid])))
            · exact Or.inr ⟨b', hb', hid, hns, hinv⟩
    · by_cases h2 : b.blockId ∈ acc
      · simp only [validateBlocksGo, if_neg h1, if_pos h2, ih]
        constructor
        · rintro (h | h)
          · exact Or.inl h
          · exact Or.inr (by obtain ⟨b', hb', hrest⟩ := h; exact ⟨b', by simp [hb'], hrest⟩)
        · rintro (h | ⟨b', hb', hid, hns, hinv⟩)
          · exact Or.inl h
          · rcases List.mem_cons.mp hb' with rfl | hb'
            · exact absurd hinv (by simpa using h3)
            · exact Or.inr ⟨b', hb', hid, hns, hinv⟩
      · simp only [validateBlocksGo, if_neg h1, if_neg h2, if_neg h3, ih]
        constructor
        · rintro (h | h)
          · exact Or.inl h
          · exact Or.inr (by obtain ⟨b', hb', hrest⟩ := h; exact ⟨b', by simp [hb'], hrest⟩)
        · rintro (h | ⟨b', hb', hid, hns, hinv⟩)
          · exact Or.inl h
          · rcases List.mem_cons.mp hb' with rfl | hb'
            · exact absurd hinv (by simpa using h3)
            · exact Or.inr ⟨b', hb', hid, hns, hinv⟩

/-- C4 (counterexample): a non-silent block with id 5 whose sequence has
format 1, over a store holding the row `(5, 2)`: `validateBlocks` returns
`{5}` even though a `sampleblocks` row for id 5 exists — so the returned
set is not "exactly the ids absent from the table". -/
theorem validateBlocks_includes_format_mismatch :
    validateBlocks [⟨5, 1⟩] [(5, 2)] = [5] ∧
      ∃ r ∈ [((5 : Int), (2 : Int))], r.1 = 5 := by
  refine ⟨by decide, ⟨(5, 2), by simp⟩⟩

/-- C4 (amended): `validateBlocks` returns exactly the non-silent
referenced ids that either have no `sampleblocks` row or have a row whose
`sampleformat` disagrees with the owning sequence's format. -/
theorem validateBlocks_mem_iff (blocks : List VBlock)
    (rows : List (Int × Int)) (id : Int) :
    id ∈ validateBlocks blocks rows ↔
      ∃ b ∈ blocks, b.blockId = id ∧ ¬ b.blockId < 0 ∧
        ((rows.filter (fun r => r.1 = b.blockId)).isEmpty ||
          (rows.filter (fun r => r.1 = b.blockId)).any
            (fun r => decide (r.2 ≠ b.seqFormat))) = true := by
  rw [validateBlocks, validateBlocksGo_mem]
  simp [blockInvalid]

/-! ## Attribute values and coercions (`XMLHandler.h`)

`AttributeValue = std::variant<bool, int32_t, uint32_t, int64_t, size_t,
float, double, std::string_view>`.  Strings are UTF-8 byte sequences
(`List Nat`); `float` / `double` alternatives carry their IEEE-754 bit
patterns — the codec never performs arithmetic on them, so the payload
bits are the faithful representation. -/

abbrev Str8 := List Nat

inductive AttrValue where
  | b (v : Bool)
  | i32 (v : Int)
  | u32 (v : Nat)
  | i64 (v : Int)
  | szT (v : Nat)
  | f32 (bits : Nat)
  | f64 (bits : Nat)
  | s (v : Str8)
deriving DecidableEq

/-- The bytes of `"true"`. -/
def strTrue : Str8 := [116, 114, 117, 101]

/-- The bytes of `"0"`. -/
def strZero : Str8 := [48]

/-- `GetAttributeValue` with `Ret = bool`: same-type alternative is copied;
arithmetic alternatives convert by `static_cast` (nonzero → `true`; for the
float kinds a value is zero exactly when its bit pattern is `±0`); the
string alternative takes the branch `result = arg == "true" || arg == "0"`. -/
def getAttrBool : AttrValue → Bool
  | .b v => v
  | .i32 v => decide (v ≠ 0)
  | .u32 v => decide (v ≠ 0)
  | .i64 v => decide (v ≠ 0)
  | .szT v => decide (v ≠ 0)
  | .f32 bits => decide (bits ≠ 0 ∧ bits ≠ 0x80000000)
  | .f64 bits => decide (bits ≠ 0 ∧ bits ≠ 0x8000000000000000)
  | .s v => v = strTrue ∨ v = strZero

/-- C10: a string-kind attribute value coerces to boolean `true` exactly
when the string is `"true"` or `"0"` — so `"0"` yields `true` while `"1"`
(or any other string) yields `false`. -/
theorem getAttrBool_string_iff (s : Str8) :
    getAttrBool (.s s) = true ↔ (s = strTrue ∨ s = strZero) := by
  simp [getAttrBool]

/-- `std::from_chars` over a decimal `int64_t`: an optional minus sign,
then at least one digit; overflow reports `result_out_of_range` and the
caller throws.  Trailing non-digits are not consumed and not an error. -/
def parseI64 (s : Str8) : Option Int :=
  match s with
  | 45 :: r =>
    if (r.takeWhile (fun c => 48 ≤ c && c ≤ 57)).isEmpty then none
    else
      if -((r.takeWhile (fun c => 48 ≤ c && c ≤ 57)).foldl
          (fun a c => a * 10 + ((c : Int) - 48)) 0) < -(2 ^ 63) then none
      else some (-((r.takeWhile (fun c => 48 ≤ c && c ≤ 57)).foldl
          (fun a c => a * 10 + ((c : Int) - 48)) 0))
  | _ =>
    if (s.takeWhile (fun c => 48 ≤ c && c ≤ 57)).isEmpty then none
    else
      if 2 ^ 63 ≤ (s.takeWhile (fun c => 48 ≤ c && c ≤ 57)).foldl
          (fun a c => a * 10 + ((c : Int) - 48)) 0 then none
      else some ((s.takeWhile (fun c => 48 ≤ c && c ≤ 57)).foldl
          (fun a c => a * 10 + ((c : Int) - 48)) 0)

/-- `std::from_chars` over a decimal `int` (32-bit): same pattern as the
`int64_t` overload with the `int` range. -/
def parseI32 (s : Str8) : Option Int :=
  match s with
  | 45 :: r =>
    if (r.takeWhile (fun c => 48 ≤ c && c ≤ 57)).isEmpty then none
    else
      if -((r.takeWhile (fun c => 48 ≤ c && c ≤ 57)).foldl
          (fun a c => a * 10 + ((c : Int) - 48)) 0) < -(2 ^ 31) then none
      else some (-((r.takeWhile (fun c => 48 ≤ c && c ≤ 57)).foldl
          (fun a c => a * 10 + ((c : Int) - 48)) 0))
  | _ =>
    if (s.takeWhile (fun c => 48 ≤ c && c ≤ 57)).isEmpty then none
    else
      if 2 ^ 31 ≤ (s.takeWhile (fun c => 48 ≤ c && c ≤ 57)).foldl
          (fun a c => a * 10 + ((c : Int) - 48)) 0 then none
      else some ((s.takeWhile (fun c => 48 ≤ c && c ≤ 57)).foldl
          (fun a c => a * 10 + ((c : Int) - 48)) 0)

/-- An IEEE-754 single-precision bit pattern, decoded to its sign bit and
its magnitude truncated toward zero (an exact natural number): exponent
`255` (infinity / NaN) has no truncated value, exponent `0` (zeros and
subnormals, magnitude below 1) truncates to `0`, and a normal value
`(2^23 + m) * 2^(e - 150)` truncates by natural division. -/
def f32TruncParts (bits : Nat) : Option (Nat × Nat) :=
  if bits / 2 ^ 23 % 2 ^ 8 = 2 ^ 8 - 1 then none
  else some (bits / 2 ^ 31 % 2,
    if bits / 2 ^ 23 % 2 ^ 8 = 0 then 0
    else if 150 ≤ bits / 2 ^ 23 % 2 ^ 8 then
      (2 ^ 23 + bits % 2 ^ 23) * 2 ^ (bits / 2 ^ 23 % 2 ^ 8 - 150)
    else (2 ^ 23 + bits % 2 ^ 23) / 2 ^ (150 - bits / 2 ^ 23 % 2 ^ 8))

/-- An IEEE-754 double-precision bit pattern, decoded like
`f32TruncParts` (exponent width 11, bias 1075 against the 52-bit
significand). -/
def f64TruncParts (bits : Nat) : Option (Nat × Nat) :=
  if bits / 2 ^ 52 % 2 ^ 11 = 2 ^ 11 - 1 then none
  else some (bits / 2 ^ 63 % 2,
    if bits / 2 ^ 52 % 2 ^ 11 = 0 then 0
    else if 1075 ≤ bits / 2 ^ 52 % 2 ^ 11 then
      (2 ^ 52 + bits % 2 ^ 52) * 2 ^ (bits / 2 ^ 52 % 2 ^ 11 - 1075)
    else (2 ^ 52 + bits % 2 ^ 52) / 2 ^ (1075 - bits / 2 ^ 52 % 2 ^ 11))

/-- `static_cast` from a floating value to a signed `w`-bit integer:
truncation toward zero when the truncated value is representable,
undefined behaviour (`none`) for NaN, infinities and out-of-range
values. -/
def truncToSigned (w : Nat) : Option (Nat × Nat) → Option Int
  | none => none
  | some (sgn, mag) =>
    if sgn = 0 then
      if mag < 2 ^ (w - 1) then some (mag : Int) else none
    else
      if mag ≤ 2 ^ (w - 1) then some (-(mag : Int)) else none

/-- `GetAttributeValue` with `Ret = int64_t`: the same-type alternative is
copied, the other integral alternatives convert by `static_cast`
(`size_t` wraps two's-complement), the float alternatives truncate toward
zero (undefined behaviour — `none` — for NaN, infinities and values
outside the `int64_t` range), strings go through `from_chars`. -/
def getAttrI64 : AttrValue → Option Int
  | .b v => some (if v then 1 else 0)
  | .i32 v => some v
  | .u32 v => some v
  | .i64 v => some v
  | .szT v => some (if v < 2 ^ 63 then (v : Int) else (v : Int) - 2 ^ 64)
  | .f32 bits => truncToSigned 64 (f32TruncParts bits)
  | .f64 bits => truncToSigned 64 (f64TruncParts bits)
  | .s v => parseI64 v

/-! ## The deserialized domain objects (`AudacityProject::HandleTagStart`)

`HandleTagStart` does not only build the `ProjectTreeNode` tree: for the
tags `waveblock` / `sequence` / `waveclip` / `wavetrack` it also
constructs a domain object whose parent it takes from
`DeserializedNodeStack.back()` via `std::get` — `std::bad_variant_access`
when the node under a misplaced tag holds another alternative, undefined
behaviour (`back()` on an empty vector) when one of the first three tags
opens with the stack empty.  The constructors then coerce specific
attributes with `GetAttributeValue`, which can throw (strings through
`std::from_chars`) or hit undefined behaviour (float-to-integer casts out
of range). -/

/-- The bytes of `"start"`. -/
def strStart : Str8 := [115, 116, 97, 114, 116]

/-- The bytes of `"blockid"`. -/
def strBlockid : Str8 := [98, 108, 111, 99, 107, 105, 100]

/-- The bytes of `"badblock"`. -/
def strBadblock : Str8 := [98, 97, 100, 98, 108, 111, 99, 107]

/-- The bytes of `"numsamples"`. -/
def strNumsamples : Str8 := [110, 117, 109, 115, 97, 109, 112, 108, 101, 115]

/-- The bytes of `"maxsamples"`. -/
def strMaxsamples : Str8 := [109, 97, 120, 115, 97, 109, 112, 108, 101, 115]

/-- The bytes of `"sampleformat"`. -/
def strSampleformat : Str8 :=
  [115, 97, 109, 112, 108, 101, 102, 111, 114, 109, 97, 116]

/-- The bytes of `"offset"`. -/
def strOffset : Str8 := [111, 102, 102, 115, 101, 116]

/-- The bytes of `"trimLeft"`. -/
def strTrimLeft : Str8 := [116, 114, 105, 109, 76, 101, 102, 116]

/-- The bytes of `"trimRight"`. -/
def strTrimRight : Str8 := [116, 114, 105, 109, 82, 105, 103, 104, 116]

/-- The bytes of `"name"`. -/
def strName : Str8 := [110, 97, 109, 101]

/-- The bytes of `"channel"`. -/
def strChannel : Str8 := [99, 104, 97, 110, 110, 101, 108]

/-- The bytes of `"linked"`. -/
def strLinked : Str8 := [108, 105, 110, 107, 101, 100]

/-- The bytes of `"rate"`. -/
def strRate : Str8 := [114, 97, 116, 101]

/-- The bytes of `"waveblock"`. -/
def strWaveblock : Str8 := [119, 97, 118, 101, 98, 108, 111, 99, 107]

/-- The bytes of `"sequence"`. -/
def strSequence : Str8 := [115, 101, 113, 117, 101, 110, 99, 101]

/-- The bytes of `"waveclip"`. -/
def strWaveclip : Str8 := [119, 97, 118, 101, 99, 108, 105, 112]

/-- The bytes of `"wavetrack"`. -/
def strWavetrack : Str8 := [119, 97, 118, 101, 116, 114, 97, 99, 107]

/-- An ASCII decimal digit. -/
def isDigit (c : Nat) : Bool := 48 ≤ c && c ≤ 57

/-- The value of a digit run. -/
def digitsVal (ds : List Nat) : Nat := ds.foldl (fun a c => a * 10 + (c - 48)) 0

/-- ASCII lower-casing of one byte. -/
def toLowerB (c : Nat) : Nat := if 65 ≤ c && c ≤ 90 then c + 32 else c

/-- Case-insensitive prefix test against a lower-case pattern. -/
def startsWithCI (s : Str8) (pat : List Nat) : Bool :=
  decide ((s.take pat.length).map toLowerB = pat)

/-- The exponent part `e`/`E`, optional sign, digits — not consumed (and
contributing `0`) when no digit follows. -/
def expVal (rest : List Nat) : Int :=
  match rest with
  | c :: r =>
    if c = 101 || c = 69 then
      match r with
      | 45 :: r2 =>
        if (r2.takeWhile isDigit).isEmpty then 0
        else -(digitsVal (r2.takeWhile isDigit) : Int)
      | 43 :: r2 =>
        if (r2.takeWhile isDigit).isEmpty then 0
        else (digitsVal (r2.takeWhile isDigit) : Int)
      | _ =>
        if (r.takeWhile isDigit).isEmpty then 0
        else (digitsVal (r.takeWhile isDigit) : Int)
    else 0
  | [] => 0

/-- `D * 10^e` rounds (to nearest, ties to even) beyond the largest finite
double, i.e. reaches `2^970 * (2^54 - 1)`: `from_chars` reports
`result_out_of_range`. -/
def f64Overflow (D : Nat) (e : Int) : Bool :=
  if 0 ≤ e then decide (2 ^ 970 * (2 ^ 54 - 1) ≤ D * 10 ^ e.toNat)
  else decide (2 ^ 970 * (2 ^ 54 - 1) * 10 ^ (-e).toNat ≤ D)

/-- A nonzero `D * 10^e` rounds to zero, i.e. is at most `2^(-1075)` (half
the least subnormal): reported as `result_out_of_range` as glibc does. -/
def f64Underflow (D : Nat) (e : Int) : Bool :=
  if 0 ≤ e then decide (D * 10 ^ e.toNat * 2 ^ 1075 ≤ 1)
  else decide (D * 2 ^ 1075 ≤ 10 ^ (-e).toNat)

/-- Modelled from the spec of `std::from_chars` for `double`
(`chars_format::general`, library code not in the sources): success of the
conversion.  An optional minus sign; then `inf`/`infinity` or `nan`
(case-insensitive, both representable, hence successful), or a mantissa of
digits with at most one decimal point (at least one digit) and an optional
exponent; a parsed value outside the range of `double` (overflow, or a
nonzero value rounding to zero) reports `result_out_of_range` and the
caller throws. -/
def parseF64Ok (s : Str8) : Bool :=
  let t := match s with | 45 :: r => r | _ => s
  if startsWithCI t [105, 110, 102] then true
  else if startsWithCI t [110, 97, 110] then true
  else
    let ip := t.takeWhile isDigit
    let rest1 := t.drop ip.length
    let fp := match rest1 with
      | 46 :: r2 => r2.takeWhile isDigit
      | _ => []
    if ip.length + fp.length = 0 then false
    else
      let D := digitsVal (ip ++ fp)
      let rest2 := match rest1 with
        | 46 :: r2 => r2.drop fp.length
        | _ => rest1
      let e : Int := expVal rest2 - fp.length
      if D = 0 then true
      else !f64Overflow D e && !f64Underflow D e

/-- Success of `GetAttributeValue` with `Ret = int64_t`. -/
def coerceI64Ok (v : AttrValue) : Bool := (getAttrI64 v).isSome

/-- Success of `GetAttributeValue` with `Ret = int`: integral alternatives
convert without failing, the float alternatives truncate (undefined
behaviour outside the `int` range), strings go through `from_chars`. -/
def coerceI32Ok : AttrValue → Bool
  | .f32 bits => (truncToSigned 32 (f32TruncParts bits)).isSome
  | .f64 bits => (truncToSigned 32 (f64TruncParts bits)).isSome
  | .s v => (parseI32 v).isSome
  | _ => true

/-- Success of `GetAttributeValue` with `Ret = double`: every arithmetic
alternative converts, strings go through `from_chars`. -/
def coerceF64Ok : AttrValue → Bool
  | .s v => parseF64Ok v
  | _ => true

/-- Success of `GetAttributeValue` with `Ret = std::string_view`: only the
same-type (string) alternative is accepted; every other alternative falls
through to the final `"Incompatible attribute type"` throw. -/
def coerceStrOk : AttrValue → Bool
  | .s _ => true
  | _ => false

/-- The `WaveBlock` constructor's attribute loop succeeds: every
`start` / `blockid` attribute coerces to `int64_t`. -/
def blockCtorOk (attrs : List (Str8 × AttrValue)) : Bool :=
  attrs.all fun a =>
    if a.1 = strStart then coerceI64Ok a.2
    else if a.1 = strBlockid then coerceI64Ok a.2
    else true

/-- The `Sequence` constructor's attribute loop succeeds: `maxsamples` and
`numsamples` coerce to `int64_t`, `sampleformat` to `int32_t`. -/
def seqCtorOk (attrs : List (Str8 × AttrValue)) : Bool :=
  attrs.all fun a =>
    if a.1 = strMaxsamples then coerceI64Ok a.2
    else if a.1 = strNumsamples then coerceI64Ok a.2
    else if a.1 = strSampleformat then coerceI32Ok a.2
    else true

/-- The `Clip` constructor's attribute loop succeeds: `offset`,
`trimLeft` and `trimRight` coerce to `double`, `name` to
`std::string_view`. -/
def clipCtorOk (attrs : List (Str8 × AttrValue)) : Bool :=
  attrs.all fun a =>
    if a.1 = strOffset then coerceF64Ok a.2
    else if a.1 = strTrimLeft then coerceF64Ok a.2
    else if a.1 = strTrimRight then coerceF64Ok a.2
    else if a.1 = strName then coerceStrOk a.2
    else true

/-- The `WaveTrack` constructor's attribute loop succeeds: `channel`,
`sampleformat` and `rate` coerce to `int`, `name` to `std::string_view`
(`linked` coerces to `bool`, which never fails). -/
def trackCtorOk (attrs : List (Str8 × AttrValue)) : Bool :=
  attrs.all fun a =>
    if a.1 = strChannel then coerceI32Ok a.2
    else if a.1 = strLinked then true
    else if a.1 = strName then coerceStrOk a.2
    else if a.1 = strSampleformat then coerceI32Ok a.2
    else if a.1 = strRate then coerceI32Ok a.2
    else true

/-- The alternative kinds of `DeserializedNodeStackElement`
(`std::variant<std::monostate, WaveBlock*, Sequence*, Clip*,
WaveTrack*>`). -/
inductive DKind where
  | mono
  | block
  | seq
  | clip
  | track
deriving DecidableEq

/-- The alternative kind `HandleTagStart` pushes for a tag. -/
def tagKind (name : Str8) : DKind :=
  if name = strWaveblock then .block
  else if name = strSequence then .seq
  else if name = strWaveclip then .clip
  else if name = strWavetrack then .track
  else .mono

/-- `HandleTagStart`'s domain-object construction succeeds for a tag with
the given collated attributes, `ctx` the alternative kind of
`DeserializedNodeStack.back()` (`none` when that stack is empty):
`waveblock` demands a `Sequence*` under it, `sequence` a `Clip*`,
`waveclip` a `WaveTrack*` (any other alternative is
`std::bad_variant_access`, the empty stack is `back()` on an empty
vector), `wavetrack` reads no parent; plus the respective constructor's
attribute coercions.  Any other tag only `emplace_back`s a monostate. -/
def startOk (ctx : Option DKind) (name : Str8)
    (attrs : List (Str8 × AttrValue)) : Bool :=
  if name = strWaveblock then decide (ctx = some .seq) && blockCtorOk attrs
  else if name = strSequence then decide (ctx = some .clip) && seqCtorOk attrs
  else if name = strWaveclip then decide (ctx = some .track) && clipCtorOk attrs
  else if name = strWavetrack then trackCtorOk attrs
  else true

/-! ## Binary-XML codec (`BinaryXMLConverter.cpp`)

The wire format is a sequence of records, each starting with a one-byte
opcode (`FieldTypes`); multi-byte integers are little-endian.  `Stream`
provides fixed-width reads and length-prefixed string reads governed by the
current char width (`mCharSize`, set by `CharSize` records).  Parsing
drives `XMLHandlerHelper` (which collates the attributes of a pending
start tag) over `AudacityProject`'s `XMLHandler` implementation, which
builds the `ProjectTreeNode` tree and interns tag/attribute names into the
reusable string cache.  All C++ exceptions (stream overflow, unknown
opcode, unresolvable dictionary id, attribute outside a tag, string read
without a valid char size, `std::bad_variant_access` on a misplaced
domain tag, a failed attribute coercion in a domain-object constructor)
and the undefined behaviours (`pop_back`/`back()` on an empty node or
deserialized-node stack, `IdsLookup::store` writing out of bounds,
an out-of-range float-to-integer cast) are modelled as a `malformed`
parse error. -/

/-- `Stream::read`-style fixed read: `n` bytes or failure. -/
def readBytes (n : Nat) (bs : List Nat) : Option (List Nat × List Nat) :=
  if n ≤ bs.length then some (bs.take n, bs.drop n) else none

/-- Little-endian byte-sequence value. -/
def leNat (bs : List Nat) : Nat := bs.foldr (fun b acc => b + 256 * acc) 0

/-- Read an `n`-byte little-endian unsigned integer. -/
def readNum (n : Nat) (bs : List Nat) : Option (Nat × List Nat) :=
  match readBytes n bs with
  | none => none
  | some (xs, rest) => some (leNat xs, rest)

/-- Reinterpret a 32-bit pattern as `int32_t`. -/
def toI32 (v : Nat) : Int := if v < 2 ^ 31 then (v : Int) else (v : Int) - 2 ^ 32

/-- Reinterpret a 64-bit pattern as `int64_t`. -/
def toI64 (v : Nat) : Int := if v < 2 ^ 63 then (v : Int) else (v : Int) - 2 ^ 64

/-- The 32-bit two's-complement pattern of an `int32_t` value. -/
def patI32 (v : Int) : Nat := (v % 2 ^ 32).toNat

/-- The 64-bit two's-complement pattern of an `int64_t` value. -/
def patI64 (v : Int) : Nat := (v % 2 ^ 64).toNat

/-- Two little-endian bytes of a value (`uint16_t` write). -/
def le2 (v : Nat) : List Nat := [v % 256, v / 256 % 256]

/-- Four little-endian bytes of a value (`uint32_t` / `int32_t` / `float`
write). -/
def le4 (v : Nat) : List Nat :=
  [v % 256, v / 256 % 256, v / 2 ^ 16 % 256, v / 2 ^ 24 % 256]

/-- Eight little-endian bytes of a value (`int64_t` / `double` write). -/
def le8 (v : Nat) : List Nat :=
  [v % 256, v / 256 % 256, v / 2 ^ 16 % 256, v / 2 ^ 24 % 256,
   v / 2 ^ 32 % 256, v / 2 ^ 40 % 256, v / 2 ^ 48 % 256, v / 2 ^ 56 % 256]

/-- Modelled from the spec: the 16-bit code units of a `CharSize 2` string,
little-endian, `symbolsCount = bytesCount / 2` (a trailing odd byte is
dropped). -/
def utf16Units : List Nat → List Nat
  | b0 :: b1 :: rest => (b0 + 256 * b1) :: utf16Units rest
  | _ => []

/-- Modelled from the spec: UTF-16 decoding as performed by the
`utf8::utf16to8` library call the repository links against — surrogate
pairs combine into one code point; the library's error contract for
unpaired surrogates is not given by the spec, so they pass through. -/
def utf16Decode : List Nat → List Nat
  | [] => []
  | u :: rest =>
    if 0xD800 ≤ u ∧ u ≤ 0xDBFF then
      match rest with
      | u2 :: rest2 =>
        if 0xDC00 ≤ u2 ∧ u2 ≤ 0xDFFF then
          (0x10000 + (u - 0xD800) * 0x400 + (u2 - 0xDC00)) :: utf16Decode rest2
        else u :: utf16Decode (u2 :: rest2)
      | [] => [u]
    else u :: utf16Decode rest
termination_by bs => bs.length
decreasing_by
  all_goals simp
  omega

/-- Standard UTF-8 encoding of one code point. -/
def utf8Enc (cp : Nat) : List Nat :=
  if cp < 0x80 then [cp]
  else if cp < 0x800 then [0xC0 + cp / 64, 0x80 + cp % 64]
  else if cp < 0x10000 then
    [0xE0 + cp / 4096, 0x80 + cp / 64 % 64, 0x80 + cp % 64]
  else
    [0xF0 + cp / 262144, 0x80 + cp / 4096 % 64, 0x80 + cp / 64 % 64,
     0x80 + cp % 64]

/-- Modelled from the spec: `utf8::utf16to8` — transcode a `CharSize 2`
string body to UTF-8. -/
def utf16to8 (bs : List Nat) : List Nat :=
  ((utf16Decode (utf16Units bs)).map utf8Enc).flatten

/-- Modelled from the spec: the 32-bit code units of a `CharSize 4` string,
little-endian, `symbolsCount = bytesCount / 4`. -/
def utf32Units : List Nat → List Nat
  | b0 :: b1 :: b2 :: b3 :: rest =>
    (b0 + 256 * b1 + 65536 * b2 + 16777216 * b3) :: utf32Units rest
  | _ => []

/-- Modelled from the spec: `utf8::utf32to8`. -/
def utf32to8 (bs : List Nat) : List Nat :=
  ((utf32Units bs).map utf8Enc).flatten

/-- `Stream::readString`: fails when no `CharSize` record has set the char
width, reads a `u32`- or `u16`-prefixed body, fails when the body overruns
the buffer, then transcodes according to the width — any width outside
`{1, 2, 4}` fails (only at this point, not when the `CharSize` record is
processed). -/
def readString (cs : Nat) (useInt : Bool) (bs : List Nat) :
    Option (Str8 × List Nat) :=
  if cs = 0 then none
  else
    match readNum (if useInt then 4 else 2) bs with
    | none => none
    | some (len, bs1) =>
      match readBytes len bs1 with
      | none => none
      | some (data, bs2) =>
        if cs = 1 then some (data, bs2)
        else if cs = 2 then some (utf16to8 data, bs2)
        else if cs = 4 then some (utf32to8 data, bs2)
        else none

/-- `IdsLookup::store`.  `index == size` appends; `index == size - 1`
replaces the last entry.  Every other index is undefined behaviour in the
source (`resize(index)` followed by an out-of-bounds `mIds[index]` write,
or a plain out-of-bounds write for `index > size`), modelled as failure. -/
def idsStore (ids : List Str8) (index : Nat) (value : Str8) :
    Option (List Str8) :=
  if index = ids.length then some (ids ++ [value])
  else if index + 1 = ids.length then some (ids.set index value)
  else none

/-- `ProjectTreeNode`: tag name, attributes, character data, the node's
index among its parent's children (`ParentIndex`), and the children. -/
inductive PNode where
  | mk (tagName : Str8) (attrs : List (Str8 × AttrValue)) (data : Str8)
      (parentIndex : Nat) (children : List PNode)

def PNode.tagName : PNode → Str8
  | .mk t _ _ _ _ => t

def PNode.attrs : PNode → List (Str8 × AttrValue)
  | .mk _ a _ _ _ => a

def PNode.data : PNode → Str8
  | .mk _ _ d _ _ => d

def PNode.parentIndex : PNode → Nat
  | .mk _ _ _ p _ => p

def PNode.children : PNode → List PNode
  | .mk _ _ _ _ c => c

mutual

/-- The whole subtree rooted at a node is admissible for
`HandleTagStart`'s domain-object construction when the node opens under
deserializer context `ctx`: the node's own construction succeeds, and
each child's does under the alternative kind this node pushes. -/
def treeDom (ctx : Option DKind) : PNode → Bool
  | .mk tag attrs _ _ children =>
    startOk ctx tag attrs && treesDom (some (tagKind tag)) children

def treesDom (ctx : Option DKind) : List PNode → Bool
  | [] => true
  | n :: ns => treeDom ctx n && treesDom ctx ns

end

/-- A node still open on the parser's node stack: its children accumulate
as nested tags close. -/
structure Frame where
  tagName : Str8
  attrs : List (Str8 × AttrValue)
  data : Str8
  parentIndex : Nat
  children : List PNode

def Frame.toNode (f : Frame) : PNode :=
  .mk f.tagName f.attrs f.data f.parentIndex f.children

/-- `XMLHandlerHelper`'s pending start tag and collated attributes. -/
structure Helper where
  inTag : Bool
  curTag : Str8
  curAttrs : List (Str8 × AttrValue)

/-- The complete parser state: `Stream::mCharSize`, the `IdsLookup`
dictionary, the helper, `AudacityProject`'s node stack, the finished root
(`mProjectNode` once closed) and the reusable string cache
(`mReusableStringsCache`). -/
structure PState where
  charSize : Nat
  dict : List Str8
  helper : Helper
  stack : List Frame
  root : Option PNode
  names : List Str8

/-- The alternative kind of `DeserializedNodeStack.back()` (`none` when
empty).  The deserialized stack runs in lockstep with the node stack
(`HandleTagStart` pushes onto both, `HandleTagEnd` pops both), and the
element pushed for a node is determined by its tag, so the kind is derived
from the top frame's tag name. -/
def stackCtx : List Frame → Option DKind
  | [] => none
  | f :: _ => some (tagKind f.tagName)

/-- Delivering the pending start tag to `AudacityProject::HandleTagStart`
does not throw or hit undefined behaviour: vacuous without a pending tag,
otherwise the domain-object construction for the pending tag and collated
attributes under the current deserializer context. -/
def flushOk (st : PState) : Bool :=
  !st.helper.inTag ||
    startOk (stackCtx st.stack) st.helper.curTag st.helper.curAttrs

/-- `AudacityProject::CacheString(view, reuse = true)`: deduplicating
append. -/
def intern (names : List Str8) (s : Str8) : List Str8 :=
  if s ∈ names then names else names ++ [s]

/-- `AudacityProject::HandleTagStart`: intern the tag name then each
attribute name, and open a new node whose `ParentIndex` is its index among
the current top's children (0 for a root). -/
def sinkStart (st : PState) (name : Str8)
    (attrs : List (Str8 × AttrValue)) : PState :=
  { st with
    names := (attrs.map Prod.fst).foldl intern (intern st.names name),
    stack := ⟨name, attrs, [], (match st.stack with
        | [] => 0
        | f :: _ => f.children.length), []⟩ :: st.stack }

/-- `AudacityProject::HandleTagEnd`: pop the node stack (undefined
behaviour when empty), completing the node — it becomes the root when the
stack empties, else the next child of the new top. -/
def sinkEnd (st : PState) : Option PState :=
  match st.stack with
  | [] => none
  | f :: rest =>
    match rest with
    | [] => some { st with stack := [], root := some f.toNode }
    | g :: gs =>
      some { st with
        stack := { g with children := g.children ++ [f.toNode] } :: gs }

/-- `AudacityProject::HandleCharData`: overwrite the open node's data
(undefined behaviour when the stack is empty). -/
def sinkData (st : PState) (d : Str8) : Option PState :=
  match st.stack with
  | [] => none
  | f :: rest => some { st with stack := { f with data := d } :: rest }

/-- The private `XMLHandlerHelper::emitStartTag()`: deliver the pending
start tag with its collated attributes to the sink. -/
def flushPending (st : PState) : PState :=
  if st.helper.inTag then
    { sinkStart st st.helper.curTag st.helper.curAttrs with
      helper := ⟨false, [], []⟩ }
  else st

/-- `XMLHandlerHelper::emitStartTag(name)`. -/
def emitStartTag (st : PState) (name : Str8) : PState :=
  { (flushPending st) with helper := ⟨true, name, []⟩ }

/-- `XMLHandlerHelper::emitEndTag(name)` (the name is only forwarded to
the sink, which ignores it). -/
def emitEndTag (st : PState) : Option PState :=
  sinkEnd (flushPending st)

/-- `XMLHandlerHelper::addAttr`: throws outside a tag context. -/
def addAttr (st : PState) (name : Str8) (v : AttrValue) : Option PState :=
  if st.helper.inTag then
    some { st with helper :=
      { st.helper with curAttrs := st.helper.curAttrs ++ [(name, v)] } }
  else none

/-- `XMLHandlerHelper::writeData`. -/
def writeData (st : PState) (d : Str8) : Option PState :=
  sinkData (flushPending st) d

inductive ParseError where
  | malformed
deriving DecidableEq

/-- One iteration of the `BinaryXMLConverter::Parse` loop, after the
opcode byte `op` has been consumed: process the record, returning the new
state and the remaining bytes. -/
def parseStep (op : Nat) (rest : List Nat) (st : PState) :
    Except ParseError (PState × List Nat) :=
  if op = 0 then -- FT_CharSize
    match readNum 1 rest with
    | none => .error .malformed
    | some (v, r) => .ok ({ st with charSize := v }, r)
  else if op = 1 then -- FT_StartTag
    match readNum 2 rest with
    | none => .error .malformed
    | some (id, r) =>
      match st.dict.get? id with
      | none => .error .malformed
      | some name =>
        if flushOk st then .ok (emitStartTag st name, r)
        else .error .malformed
  else if op = 2 then -- FT_EndTag
    match readNum 2 rest with
    | none => .error .malformed
    | some (id, r) =>
      match st.dict.get? id with
      | none => .error .malformed
      | some _ =>
        if flushOk st then
          match emitEndTag st with
          | none => .error .malformed
          | some st' => .ok (st', r)
        else .error .malformed
  else if op = 3 then -- FT_String
    match readNum 2 rest with
    | none => .error .malformed
    | some (id, r) =>
      match st.dict.get? id with
      | none => .error .malformed
      | some name =>
        match readString st.charSize true r with
        | none => .error .malformed
        | some (sv, r2) =>
          match addAttr st name (.s sv) with
          | none => .error .malformed
          | some st' => .ok (st', r2)
  else if op = 4 then -- FT_Int
    match readNum 2 rest with
    | none => .error .malformed
    | some (id, r) =>
      match st.dict.get? id with
      | none => .error .malformed
      | some name =>
        match readNum 4 r with
        | none => .error .malformed
        | some (v, r2) =>
          match addAttr st name (.i32 (toI32 v)) with
          | none => .error .malformed
          | some st' => .ok (st', r2)
  else if op = 5 then -- FT_Bool
    match readNum 2 rest with
    | none => .error .malformed
    | some (id, r) =>
      match st.dict.get? id with
      | none => .error .malformed
      | some name =>
        match readNum 1 r with
        | none => .error .malformed
        | some (v, r2) =>
          match addAttr st name (.b (decide (v ≠ 0))) with
          | none => .error .malformed
          | some st' => .ok (st', r2)
  else if op = 6 then -- FT_Long (read as int32_t, like FT_Int)
    match readNum 2 rest with
    | none => .error .malformed
    | some (id, r) =>
      match st.dict.get? id with
      | none => .error .malformed
      | some name =>
        match readNum 4 r with
        | none => .error .malformed
        | some (v, r2) =>
          match addAttr st name (.i32 (toI32 v)) with
          | none => .error .malformed
          | some st' => .ok (st', r2)
  else if op = 7 then -- FT_LongLong
    match readNum 2 rest with
    | none => .error .malformed
    | some (id, r) =>
      match st.dict.get? id with
      | none => .error .malformed
      | some name =>
        match readNum 8 r with
        | none => .error .malformed
        | some (v, r2) =>
          match addAttr st name (.i64 (toI64 v)) with
          | none => .error .malformed
          | some st' => .ok (st', r2)
  else if op = 8 then -- FT_SizeT
    match readNum 2 rest with
    | none => .error .malformed
    | some (id, r) =>
      match st.dict.get? id with
      | none => .error .malformed
      | some name =>
        match readNum 4 r with
        | none => .error .malformed
        | some (v, r2) =>
          match addAttr st name (.u32 v) with
          | none => .error .malformed
          | some st' => .ok (st', r2)
  else if op = 9 then -- FT_Float: value bits, then the skipped digits field
    match readNum 2 rest with
    | none => .error .malformed
    | some (id, r) =>
      match st.dict.get? id with
      | none => .error .malformed
      | some name =>
        match readNum 4 r with
        | none => .error .malformed
        | some (v, r2) =>
          match addAttr st name (.f32 v) with
          | none => .error .malformed
          | some st' =>
            match readBytes 4 r2 with
            | none => .error .malformed
            | some (_, r3) => .ok (st', r3)
  else if op = 10 then -- FT_Double
    match readNum 2 rest with
    | none => .error .malformed
    | some (id, r) =>
      match st.dict.get? id with
      | none => .error .malformed
      | some name =>
        match readNum 8 r with
        | none => .error .malformed
        | some (v, r2) =>
          match addAttr st name (.f64 v) with
          | none => .error .malformed
          | some st' =>
            match readBytes 4 r2 with
            | none => .error .malformed
            | some (_, r3) => .ok (st', r3)
  else if op = 11 then -- FT_Data
    match readString st.charSize true rest with
    | none => .error .malformed
    | some (sv, r) =>
      if flushOk st then
        match writeData st sv with
        | none => .error .malformed
        | some st' => .ok (st', r)
      else .error .malformed
  else if op = 12 then -- FT_Raw: skipString(true), no char-size check
    match readNum 4 rest with
    | none => .error .malformed
    | some (len, r) =>
      match readBytes len r with
      | none => .error .malformed
      | some (_, r2) => .ok (st, r2)
  else if op = 15 then -- FT_Name
    match readNum 2 rest with
    | none => .error .malformed
    | some (id, r) =>
      match readString st.charSize false r with
      | none => .error .malformed
      | some (sv, r2) =>
        match idsStore st.dict id sv with
        | none => .error .malformed
        | some dict' => .ok ({ st with dict := dict' }, r2)
  else -- FT_Push, FT_Pop and any other byte: "Unsupported opcode"
    .error .malformed

theorem readBytes_len {n : Nat} {bs xs r : List Nat}
    (h : readBytes n bs = some (xs, r)) : r.length ≤ bs.length := by
  rw [readBytes] at h
  split at h
  · cases h
    simp
  · cases h

theorem readNum_len {n : Nat} {bs : List Nat} {v : Nat} {r : List Nat}
    (h : readNum n bs = some (v, r)) : r.length ≤ bs.length := by
  rw [readNum] at h
  cases hb : readBytes n bs with
  | none => rw [hb] at h; cases h
  | some p =>
    rw [hb] at h
    cases h
    exact readBytes_len hb

theorem readString_len {cs : Nat} {useInt : Bool} {bs : List Nat} {s : Str8}
    {r : List Nat} (h : readString cs useInt bs = some (s, r)) :
    r.length ≤ bs.length := by
  rw [readString] at h
  split at h
  · cases h
  · cases hn : readNum (if useInt then 4 else 2) bs with
    | none => rw [hn] at h; cases h
    | some p =>
      obtain ⟨len, bs1⟩ := p
      rw [hn] at h
      dsimp only at h
      cases hb : readBytes len bs1 with
      | none => rw [hb] at h; cases h
      | some q =>
        obtain ⟨data, bs2⟩ := q
        rw [hb] at h
        dsimp only at h
        have h1 : bs1.length ≤ bs.length := readNum_len hn
        have h2 : bs2.length ≤ bs1.length := readBytes_len hb
        split at h
        · cases h; omega
        · split at h
          · cases h; omega
          · split at h
            · cases h; omega
            · cases h

theorem readBytes_suffix {n : Nat} {bs xs r : List Nat}
    (h : readBytes n bs = some (xs, r)) : r.IsSuffix bs := by
  rw [readBytes] at h
  split at h
  · cases h
    exact List.drop_suffix n bs
  · cases h

theorem readNum_suffix {n : Nat} {bs : List Nat} {v : Nat} {r : List Nat}
    (h : readNum n bs = some (v, r)) : r.IsSuffix bs := by
  rw [readNum] at h
  cases hb : readBytes n bs with
  | none => rw [hb] at h; cases h
  | some p =>
    rw [hb] at h
    cases h
    exact readBytes_suffix hb

theorem readString_suffix {cs : Nat} {useInt : Bool} {bs : List Nat}
    {s : Str8} {r : List Nat} (h : readString cs useInt bs = some (s, r)) :
    r.IsSuffix bs := by
  rw [readString] at h
  split at h
  · cases h
  · cases hn : readNum (if useInt then 4 else 2) bs with
    | none => rw [hn] at h; cases h
    | some p =>
      obtain ⟨len, bs1⟩ := p
      rw [hn] at h
      dsimp only at h
      cases hb : readBytes len bs1 with
      | none => rw [hb] at h; cases h
      | some q =>
        obtain ⟨data, bs2⟩ := q
        rw [hb] at h
        dsimp only at h
        have h2 : bs2.IsSuffix bs1 := readBytes_suffix hb
        have h1 : bs1.IsSuffix bs := readNum_suffix hn
        split at h
        · cases h; exact h2.trans h1
        · split at h
          · cases h; exact h2.trans h1
          · split at h
            · cases h; exact h2.trans h1
            · cases h

theorem parseStep_suffix {op : Nat} {rest : List Nat} {st st' : PState}
    {rem : List Nat} (h : parseStep op rest st = .ok (st', rem)) :
    rem.IsSuffix rest := by
  unfold parseStep at h
  by_cases h0 : op = 0
  · rw [if_pos h0] at h
    cases hn : readNum 1 rest with
    | none => rw [hn] at h; cases h
    | some p => rw [hn] at h; cases h; exact readNum_suffix hn
  rw [if_neg h0] at h
  by_cases h1 : op = 1
  · rw [if_pos h1] at h
    cases hn : readNum 2 rest with
    | none => rw [hn] at h; cases h
    | some p =>
      obtain ⟨id, r⟩ := p
      rw [hn] at h; dsimp only at h
      cases hd : st.dict.get? id with
      | none => rw [hd] at h; cases h
      | some name =>
        rw [hd] at h; dsimp only at h
        split at h
        · cases h; exact readNum_suffix hn
        · cases h
  rw [if_neg h1] at h
  by_cases h2 : op = 2
  · rw [if_pos h2] at h
    cases hn : readNum 2 rest with
    | none => rw [hn] at h; cases h
    | some p =>
      obtain ⟨id, r⟩ := p
      rw [hn] at h; dsimp only at h
      cases hd : st.dict.get? id with
      | none => rw [hd] at h; cases h
      | some name =>
        rw [hd] at h; dsimp only at h
        split at h
        · cases he : emitEndTag st with
          | none => rw [he] at h; cases h
          | some st2 => rw [he] at h; cases h; exact readNum_suffix hn
        · cases h
  rw [if_neg h2] at h
  by_cases h3 : op = 3
  · rw [if_pos h3] at h
    cases hn : readNum 2 rest with
    | none => rw [hn] at h; cases h
    | some p =>
      obtain ⟨id, r⟩ := p
      rw [hn] at h; dsimp only at h
      cases hd : st.dict.get? id with
      | none => rw [hd] at h; cases h
      | some name =>
        rw [hd] at h; dsimp only at h
        cases hs : readString st.charSize true r with
        | none => rw [hs] at h; cases h
        | some q =>
          obtain ⟨sv, r2⟩ := q
          rw [hs] at h; dsimp only at h
          cases ha : addAttr st name (.s sv) with
          | none => rw [ha] at h; cases h
          | some st2 =>
            rw [ha] at h; cases h
            exact (readString_suffix hs).trans (readNum_suffix hn)
  rw [if_neg h3] at h
  by_cases h4 : op = 4
  · rw [if_pos h4] at h
    cases hn : readNum 2 rest with
    | none => rw [hn] at h; cases h
    | some p =>
      obtain ⟨id, r⟩ := p
      rw [hn] at h; dsimp only at h
      cases hd : st.dict.get? id with
      | none => rw [hd] at h; cases h
      | some name =>
        rw [hd] at h; dsimp only at h
        cases hv : readNum 4 r with
        | none => rw [hv] at h; cases h
        | some q =>
          obtain ⟨v, r2⟩ := q
          rw [hv] at h; dsimp only at h
          cases ha : addAttr st name (.i32 (toI32 v)) with
          | none => rw [ha] at h; cases h
          | some st2 =>
            rw [ha] at h; cases h
            exact (readNum_suffix hv).trans (readNum_suffix hn)
  rw [if_neg h4] at h
  by_cases h5 : op = 5
  · rw [if_pos h5] at h
    cases hn : readNum 2 rest with
    | none => rw [hn] at h; cases h
    | some p =>
      obtain ⟨id, r⟩ := p
      rw [hn] at h; dsimp only at h
      cases hd : st.dict.get? id with
      | none => rw [hd] at h; cases h
      | some name =>
        rw [hd] at h; dsimp only at h
        cases hv : readNum 1 r with
        | none => rw [hv] at h; cases h
        | some q =>
          obtain ⟨v, r2⟩ := q
          rw [hv] at h; dsimp only at h
          cases ha : addAttr st name (.b (decide (v ≠ 0))) with
          | none => rw [ha] at h; cases h
          | some st2 =>
            rw [ha] at h; cases h
            exact (readNum_suffix hv).trans (readNum_suffix hn)
  rw [if_neg h5] at h
  by_cases h6 : op = 6
  · rw [if_pos h6] at h
    cases hn : readNum 2 rest with
    | none => rw [hn] at h; cases h
    | some p =>
      obtain ⟨id, r⟩ := p
      rw [hn] at h; dsimp only at h
      cases hd : st.dict.get? id with
      | none => rw [hd] at h; cases h
      | some name =>
        rw [hd] at h; dsimp only at h
        cases hv : readNum 4 r with
        | none => rw [hv] at h; cases h
        | some q =>
          obtain ⟨v, r2⟩ := q
          rw [hv] at h; dsimp only at h
          cases ha : addAttr st name (.i32 (toI32 v)) with
          | none => rw [ha] at h; cases h
          | some st2 =>
            rw [ha] at h; cases h
            exact (readNum_suffix hv).trans (readNum_suffix hn)
  rw [if_neg h6] at h
  by_cases h7 : op = 7
  · rw [if_pos h7] at h
    cases hn : readNum 2 rest with
    | none => rw [hn] at h; cases h
    | some p =>
      obtain ⟨id, r⟩ := p
      rw [hn] at h; dsimp only at h
      cases hd : st.dict.get? id with
      | none => rw [hd] at h; cases h
      | some name =>
        rw [hd] at h; dsimp only at h
        cases hv : readNum 8 r with
        | none => rw [hv] at h; cases h
        | some q =>
          obtain ⟨v, r2⟩ := q
          rw [hv] at h; dsimp only at h
          cases ha : addAttr st name (.i64 (toI64 v)) with
          | none => rw [ha] at h; cases h
          | some st2 =>
            rw [ha] at h; cases h
            exact (readNum_suffix hv).trans (readNum_suffix hn)
  rw [if_neg h7] at h
  by_cases h8 : op = 8
  · rw [if_pos h8] at h
    cases hn : readNum 2 rest with
    | none => rw [hn] at h; cases h
    | some p =>
      obtain ⟨id, r⟩ := p
      rw [hn] at h; dsimp only at h
      cases hd : st.dict.get? id with
      | none => rw [hd] at h; cases h
      | some name =>
        rw [hd] at h; dsimp only at h
        cases hv : readNum 4 r with
        | none => rw [hv] at h; cases h
        | some q =>
          obtain ⟨v, r2⟩ := q
          rw [hv] at h; dsimp only at h
          cases ha : addAttr st name (.u32 v) with
          | none => rw [ha] at h; cases h
          | some st2 =>
            rw [ha] at h; cases h
            exact (readNum_suffix hv).trans (readNum_suffix hn)
  rw [if_neg h8] at h
  by_cases h9 : op = 9
  · rw [if_pos h9] at h
    cases hn : readNum 2 rest with
    | none => rw [hn] at h; cases h
    | some p =>
      obtain ⟨id, r⟩ := p
      rw [hn] at h; dsimp only at h
      cases hd : st.dict.get? id with
      | none => rw [hd] at h; cases h
      | some name =>
        rw [hd] at h; dsimp only at h
        cases hv : readNum 4 r with
        | none => rw [hv] at h; cases h
        | some q =>
          obtain ⟨v, r2⟩ := q
          rw [hv] at h; dsimp only at h
          cases ha : addAttr st name (.f32 v) with
          | none => rw [ha] at h; cases h
          | some st2 =>
            rw [ha] at h; dsimp only at h
            cases hk : readBytes 4 r2 with
            | none => rw [hk] at h; cases h
            | some q2 =>
              obtain ⟨w, r3⟩ := q2
              rw [hk] at h; cases h
              exact (readBytes_suffix hk).trans
                ((readNum_suffix hv).trans (readNum_suffix hn))
  rw [if_neg h9] at h
  by_cases h10 : op = 10
  · rw [if_pos h10] at h
    cases hn : readNum 2 rest with
    | none => rw [hn] at h; cases h
    | some p =>
      obtain ⟨id, r⟩ := p
      rw [hn] at h; dsimp only at h
      cases hd : st.dict.get? id with
      | none => rw [hd] at h; cases h
      | some name =>
        rw [hd] at h; dsimp only at h
        cases hv : readNum 8 r with
        | none => rw [hv] at h; cases h
        | some q =>
          obtain ⟨v, r2⟩ := q
          rw [hv] at h; dsimp only at h
          cases ha : addAttr st name (.f64 v) with
          | none => rw [ha] at h; cases h
          | some st2 =>
            rw [ha] at h; dsimp only at h
            cases hk : readBytes 4 r2 with
            | none => rw [hk] at h; cases h
            | some q2 =>
              obtain ⟨w, r3⟩ := q2
              rw [hk] at h; cases h
              exact (readBytes_suffix hk).trans
                ((readNum_suffix hv).trans (readNum_suffix hn))
  rw [if_neg h10] at h
  by_cases h11 : op = 11
  · rw [if_pos h11] at h
    cases hs : readString st.charSize true rest with
    | none => rw [hs] at h; cases h
    | some q =>
      obtain ⟨sv, r⟩ := q
      rw [hs] at h; dsimp only at h
      split at h
      · cases hw : writeData st sv with
        | none => rw [hw] at h; cases h
        | some st2 => rw [hw] at h; cases h; exact readString_suffix hs
      · cases h
  rw [if_neg h11] at h
  by_cases h12 : op = 12
  · rw [if_pos h12] at h
    cases hn : readNum 4 rest with
    | none => rw [hn] at h; cases h
    | some p =>
      obtain ⟨len, r⟩ := p
      rw [hn] at h; dsimp only at h
      cases hk : readBytes len r with
      | none => rw [hk] at h; cases h
      | some q =>
        obtain ⟨w, r2⟩ := q
        rw [hk] at h; cases h
        exact (readBytes_suffix hk).trans (readNum_suffix hn)
  rw [if_neg h12] at h
  by_cases h15 : op = 15
  · rw [if_pos h15] at h
    cases hn : readNum 2 rest with
    | none => rw [hn] at h; cases h
    | some p =>
      obtain ⟨id, r⟩ := p
      rw [hn] at h; dsimp only at h
      cases hs : readString st.charSize false r with
      | none => rw [hs] at h; cases h
      | some q =>
        obtain ⟨sv, r2⟩ := q
        rw [hs] at h; dsimp only at h
        cases hi : idsStore st.dict id sv with
        | none => rw [hi] at h; cases h
        | some dict2 =>
          rw [hi] at h; cases h
          exact (readString_suffix hs).trans (readNum_suffix hn)
  rw [if_neg h15] at h
  cases h


theorem parseStep_remaining_le {op : Nat} {rest : List Nat} {st st' : PState}
    {rem : List Nat} (h : parseStep op rest st = .ok (st', rem)) :
    rem.length ≤ rest.length :=
  (parseStep_suffix h).length_le

/-- The tree state when the stream ends with unclosed tags: every open
node is already attached in place in the C++ tree, so closing the stack
attaches each frame to its parent; the bottom frame (the current
`mProjectNode`) becomes the root. -/
def collapseStack : List Frame → Option PNode → Option PNode
  | [], r => r
  | [f], _ => some f.toNode
  | f :: g :: gs, r =>
    collapseStack ({ g with children := g.children ++ [f.toNode] } :: gs) r
termination_by fs _ => fs.length

/-- The `XMLHandlerHelper` destructor: a still-pending start tag is
flushed and closed once the stream ends (a throwing flush inside the
implicitly-`noexcept` destructor is `std::terminate`, modelled as
failure). -/
def finalizeEof (st : PState) : Option PState :=
  if st.helper.inTag then
    if flushOk st then emitEndTag st else none
  else some st

/-- The `BinaryXMLConverter::Parse` loop: read an opcode byte and process
its record until end of stream, then run the helper's destructor. -/
def parseLoop : List Nat → PState → Except ParseError (Option PNode × List Str8)
  | [], st =>
    match finalizeEof st with
    | none => .error .malformed
    | some st' => .ok (collapseStack st'.stack st'.root, st'.names)
  | op :: rest, st =>
    match hs : parseStep op rest st with
    | .error e => .error e
    | .ok (st', rem) => parseLoop rem st'
termination_by bs _ => bs.length
decreasing_by
  have := parseStep_remaining_le hs
  simp only [List.length_cons]
  omega

/-- The parser's initial state: no char size, empty dictionary, no pending
tag, empty node stack, no root, empty reusable string cache. -/
def initState : PState := ⟨0, [], ⟨false, [], []⟩, [], none, []⟩

/-- `BinaryXMLConverter::Parse` over `AudacityProject` as the handler,
returning the resulting project tree (`mProjectNode`) and reusable string
cache. -/
def parse (bs : List Nat) : Except ParseError (Option PNode × List Str8) :=
  parseLoop bs initState

/-! ### Serialization (`BinaryXMLConverter::SerializeProject` / `WriteNode`) -/

/-- The serializer's name lookup: `std::find` over the dictionary, index
returned as `uint16_t`. -/
def lookupIdx (names : List Str8) (s : Str8) : Option Nat :=
  match names with
  | [] => none
  | n :: ns => if n = s then some 0 else (lookupIdx ns s).map (· + 1)

/-- `WriteNode`'s attribute emission: one record per attribute, keyed on
the value's current kind.  `size_t` values are truncated to `uint32_t`;
float and double re-emit the literal digits fields `7` and `19`. -/
def serAttr (names : List Str8) (a : Str8 × AttrValue) : Option (List Nat) :=
  match lookupIdx names a.1 with
  | none => none
  | some idx =>
    some (match a.2 with
      | .b v => 5 :: le2 idx ++ [if v then 1 else 0]
      | .i32 v => 4 :: le2 idx ++ le4 (patI32 v)
      | .u32 v => 8 :: le2 idx ++ le4 v
      | .i64 v => 7 :: le2 idx ++ le8 (patI64 v)
      | .szT v => 8 :: le2 idx ++ le4 v
      | .f32 bits => 9 :: le2 idx ++ le4 bits ++ le4 7
      | .f64 bits => 10 :: le2 idx ++ le8 bits ++ le4 19
      | .s v => 3 :: le2 idx ++ le4 v.length ++ v)

mutual

/-- `WriteNode`: `StartTag`, the attributes, `Data` when non-empty, the
children depth-first, then `EndTag`.  Fails (`UnknownName`) when a tag or
attribute name is not in the dictionary. -/
def serNode (names : List Str8) : PNode → Option (List Nat)
  | .mk tag attrs data _ children =>
    match lookupIdx names tag with
    | none => none
    | some tagIdx =>
      match serAttrs names attrs with
      | none => none
      | some attrBytes =>
        match serNodes names children with
        | none => none
        | some childBytes =>
          some (1 :: le2 tagIdx ++ attrBytes ++
            (if data.isEmpty then []
             else 11 :: le4 data.length ++ data) ++
            childBytes ++ 2 :: le2 tagIdx)

def serAttrs (names : List Str8) : List (Str8 × AttrValue) → Option (List Nat)
  | [] => some []
  | a :: rest =>
    match serAttr names a with
    | none => none
    | some bs =>
      match serAttrs names rest with
      | none => none
      | some bs2 => some (bs ++ bs2)

def serNodes (names : List Str8) : List PNode → Option (List Nat)
  | [] => some []
  | n :: ns =>
    match serNode names n with
    | none => none
    | some bs =>
      match serNodes names ns with
      | none => none
      | some bs2 => some (bs ++ bs2)

end

/-- Machine-representability of an attribute value as `Parse` produces it.
`size_t` attributes are never produced by parsing (only `SizeT` records
exist on the wire, read as `uint32_t`). -/
def attrValueWf : AttrValue → Prop
  | .b _ => True
  | .i32 v => -(2 ^ 31) ≤ v ∧ v < 2 ^ 31
  | .u32 v => v < 2 ^ 32
  | .i64 v => -(2 ^ 63) ≤ v ∧ v < 2 ^ 63
  | .szT _ => False
  | .f32 bits => bits < 2 ^ 32
  | .f64 bits => bits < 2 ^ 64
  | .s _ => True

mutual

def treeWf : PNode → Prop
  | .mk _ attrs _ _ children =>
    (∀ a ∈ attrs, attrValueWf a.2) ∧ treesWf 0 children

/-- The children from position `i` on: each records its index and is
well-formed. -/
def treesWf : Nat → List PNode → Prop
  | _, [] => True
  | i, c :: cs => c.parentIndex = i ∧ treeWf c ∧ treesWf (i + 1) cs

end

mutual

/-- All tag and attribute names of a tree, in interning order. -/
def treeNames : PNode → List Str8
  | .mk tag attrs _ _ children =>
    tag :: (attrs.map Prod.fst) ++ treeNamesList children

def treeNamesList : List PNode → List Str8
  | [] => []
  | n :: ns => treeNames n ++ treeNamesList ns

end

mutual

/-- The string-length side conditions of the serializer: `Data` and string
attribute values are length-prefixed with a `uint32_t`. -/
def treeLens : PNode → Bool
  | .mk _ attrs data _ children =>
    attrs.all (fun a => match a.2 with
      | .s v => decide (v.length < 2 ^ 32)
      | _ => true) &&
    decide (data.length < 2 ^ 32) && treeLensList children

def treeLensList : List PNode → Bool
  | [] => true
  | n :: ns => treeLens n && treeLensList ns

end

theorem intern_mem {names : List Str8} {s : Str8} (x : Str8)
    (h : s ∈ names) : s ∈ intern names x := by
  rw [intern]
  split <;> simp [h]

theorem foldl_intern_mem {names : List Str8} {s : Str8} (xs : List Str8)
    (h : s ∈ names) : s ∈ xs.foldl intern names := by
  induction xs generalizing names with
  | nil => exact h
  | cons x xs ih => exact ih (intern_mem x h)

theorem names_mono_flushPending (st : PState) {s : Str8} (h : s ∈ st.names) :
    s ∈ (flushPending st).names := by
  rw [flushPending]
  split
  · exact foldl_intern_mem _ (intern_mem _ h)
  · exact h

theorem parseLoop_step {op : Nat} {rest : List Nat} {st st' : PState}
    {rem : List Nat} (h : parseStep op rest st = .ok (st', rem)) :
    parseLoop (op :: rest) st = parseLoop rem st' := by
  rw [parseLoop.eq_def]
  dsimp only
  split
  · rename_i e he
    rw [he] at h
    cases h
  · rename_i st2 rem2 hs2
    rw [hs2] at h
    cases h
    rfl

theorem le2_length (v : Nat) : (le2 v).length = 2 := rfl

theorem le4_length (v : Nat) : (le4 v).length = 4 := rfl

theorem le8_length (v : Nat) : (le8 v).length = 8 := rfl

theorem leNat_le2 (v : Nat) : leNat (le2 v) = v % 2 ^ 16 := by
  rw [le2, leNat]
  simp only [List.foldr_cons, List.foldr_nil]
  omega

theorem leNat_le4 (v : Nat) : leNat (le4 v) = v % 2 ^ 32 := by
  rw [le4, leNat]
  simp only [List.foldr_cons, List.foldr_nil]
  omega

theorem leNat_le8 (v : Nat) : leNat (le8 v) = v % 2 ^ 64 := by
  rw [le8, leNat]
  simp only [List.foldr_cons, List.foldr_nil]
  omega

theorem readBytes_exact (xs X : List Nat) :
    readBytes xs.length (xs ++ X) = some (xs, X) := by
  rw [readBytes, if_pos (by simp)]
  rw [List.take_left, List.drop_left]

theorem readNum_le2 (v : Nat) (X : List Nat) :
    readNum 2 (le2 v ++ X) = some (v % 2 ^ 16, X) := by
  have h := readBytes_exact (le2 v) X
  rw [le2_length] at h
  rw [readNum, h]
  dsimp only
  rw [leNat_le2]

theorem readNum_le4 (v : Nat) (X : List Nat) :
    readNum 4 (le4 v ++ X) = some (v % 2 ^ 32, X) := by
  have h := readBytes_exact (le4 v) X
  rw [le4_length] at h
  rw [readNum, h]
  dsimp only
  rw [leNat_le4]

theorem readNum_le8 (v : Nat) (X : List Nat) :
    readNum 8 (le8 v ++ X) = some (v % 2 ^ 64, X) := by
  have h := readBytes_exact (le8 v) X
  rw [le8_length] at h
  rw [readNum, h]
  dsimp only
  rw [leNat_le8]

theorem readString_u32 (s : Str8) (X : List Nat) (h : s.length < 2 ^ 32) :
    readString 1 true (le4 s.length ++ (s ++ X)) = some (s, X) := by
  rw [readString, if_neg (by omega)]
  rw [if_pos rfl, readNum_le4, Nat.mod_eq_of_lt h]
  dsimp only
  rw [readBytes_exact]
  simp

theorem lookupIdx_some {names : List Str8} {s : Str8} {i : Nat}
    (h : lookupIdx names s = some i) :
    names.get? i = some s ∧ i < names.length := by
  induction names generalizing i with
  | nil => cases h
  | cons n ns ih =>
    rw [lookupIdx] at h
    split at h
    · cases h
      rename_i he
      subst he
      exact ⟨rfl, by simp⟩
    · cases hr : lookupIdx ns s with
      | none => rw [hr] at h; cases h
      | some j =>
        rw [hr] at h
        cases h
        obtain ⟨h1, h2⟩ := ih hr
        exact ⟨by simpa using h1, by simp; omega⟩

theorem readNum_one (b : Nat) (Y : List Nat) :
    readNum 1 (b :: Y) = some (b, Y) := by
  rw [readNum, readBytes, if_pos (by simp)]
  simp [leNat]

theorem readBytes_le4 (v : Nat) (Y : List Nat) :
    readBytes 4 (le4 v ++ Y) = some (le4 v, Y) := by
  have h := readBytes_exact (le4 v) Y
  rwa [le4_length] at h

/-- The helper's quiescent well-formedness: outside a tag context the
pending fields are empty (as `emitStartTag` leaves them). -/
def helperClean (st : PState) : Prop :=
  st.helper.inTag = false → st.helper = ⟨false, [], []⟩

theorem flushPending_dict (st : PState) :
    (flushPending st).dict = st.dict := by
  rw [flushPending]
  split <;> rfl

theorem flushPending_charSize (st : PState) :
    (flushPending st).charSize = st.charSize := by
  rw [flushPending]
  split <;> rfl

theorem flushPending_helper {st : PState} (h : helperClean st) :
    (flushPending st).helper = ⟨false, [], []⟩ := by
  rw [flushPending]
  split
  · rfl
  · rename_i hf
    exact h (by revert hf; cases st.helper.inTag <;> simp)

theorem flushPending_of_not_inTag {st : PState}
    (h : st.helper.inTag = false) : flushPending st = st := by
  rw [flushPending, if_neg (by simp [h])]

theorem flushOk_of_not_inTag {st : PState} (h : st.helper.inTag = false) :
    flushOk st = true := by
  rw [flushOk, h]
  rfl

mutual

/-- The reusable-cache interning performed while a node and its subtree
are delivered to the sink: tag, attribute names, then the children
depth-first. -/
def internNode (names : List Str8) : PNode → List Str8
  | .mk tag attrs _ _ children =>
    internNodes ((attrs.map Prod.fst).foldl intern (intern names tag)) children

def internNodes (names : List Str8) : List PNode → List Str8
  | [] => names
  | n :: ns => internNodes (internNode names n) ns

end

/-- The parser state after one complete serialized node has been consumed:
any pending tag is flushed, the node hangs off the top frame (or becomes
the root), and its names are interned. -/
def afterNode (st : PState) (n : PNode) : PState :=
  match hs : (flushPending st).stack with
  | [] =>
    { (flushPending st) with
        helper := ⟨false, [], []⟩,
        root := some n,
        names := internNode (flushPending st).names n }
  | g :: gs =>
    { (flushPending st) with
        helper := ⟨false, [], []⟩,
        stack := { g with children := g.children ++ [n] } :: gs,
        names := internNode (flushPending st).names n }

def afterNodes (st : PState) : List PNode → PState
  | [] => st
  | n :: ns => afterNodes (afterNode st n) ns

theorem afterNode_dict (st : PState) (n : PNode) :
    (afterNode st n).dict = st.dict := by
  rw [afterNode]
  split <;> simp [flushPending_dict]

theorem afterNode_charSize (st : PState) (n : PNode) :
    (afterNode st n).charSize = st.charSize := by
  rw [afterNode]
  split <;> simp [flushPending_charSize]

theorem afterNode_helperClean (st : PState) (n : PNode) :
    helperClean (afterNode st n) := by
  rw [afterNode]
  split <;> exact fun _ => rfl

theorem afterNode_inTag (st : PState) (n : PNode) :
    (afterNode st n).helper.inTag = false := by
  rw [afterNode]
  split <;> rfl

theorem flushOk_afterNodes (ns : List PNode) :
    ∀ st : PState, flushOk st = true → flushOk (afterNodes st ns) = true := by
  induction ns with
  | nil => intro st h; exact h
  | cons n ns ih =>
    intro st h
    rw [afterNodes]
    exact ih (afterNode st n) (flushOk_of_not_inTag (afterNode_inTag st n))

theorem afterNodes_dict (ns : List PNode) :
    ∀ st : PState, (afterNodes st ns).dict = st.dict := by
  induction ns with
  | nil => intro st; rfl
  | cons n ns ih => intro st; rw [afterNodes, ih, afterNode_dict]

theorem afterNodes_charSize (ns : List PNode) :
    ∀ st : PState, (afterNodes st ns).charSize = st.charSize := by
  induction ns with
  | nil => intro st; rfl
  | cons n ns ih => intro st; rw [afterNodes, ih, afterNode_charSize]

theorem afterNode_of_stack_cons {st : PState} {g : Frame} {gs : List Frame}
    (h : (flushPending st).stack = g :: gs) (n : PNode) :
    afterNode st n
      = { (flushPending st) with
          helper := ⟨false, [], []⟩,
          stack := { g with children := g.children ++ [n] } :: gs,
          names := internNode (flushPending st).names n } := by
  rw [afterNode]
  split
  · rename_i hnil
    rw [hnil] at h
    cases h
  · rename_i g2 gs2 hcons
    rw [hcons] at h
    cases h
    rfl

theorem flushPending_afterNodes (ns : List PNode) :
    ∀ (st : PState) (f : Frame) (rs : List Frame), helperClean st →
      (flushPending st).stack = f :: rs →
      flushPending (afterNodes st ns)
        = { (flushPending st) with
            helper := ⟨false, [], []⟩,
            stack := { f with children := f.children ++ ns } :: rs,
            names := internNodes (flushPending st).names ns } := by
  induction ns with
  | nil =>
    intro st f rs hclean hstack
    rw [afterNodes, internNodes]
    have hh := flushPending_helper hclean
    cases hfp : flushPending st with
    | mk cs d hl sk rt nm =>
      rw [hfp] at hh hstack
      dsimp at hh hstack
      subst hh
      rw [hstack]
      simp
  | cons n ns ih =>
    intro st f rs hclean hstack
    rw [afterNodes]
    have hst' := afterNode_of_stack_cons hstack n
    have hclean' : helperClean (afterNode st n) := afterNode_helperClean st n
    have hfp' : flushPending (afterNode st n) = afterNode st n :=
      flushPending_of_not_inTag (afterNode_inTag st n)
    have hstack' : (flushPending (afterNode st n)).stack
        = { f with children := f.children ++ [n] } :: rs := by
      rw [hfp', hst']
    rw [ih (afterNode st n) _ rs hclean' hstack', hfp', hst']
    rw [internNodes]
    simp

theorem patI32_lt (v : Int) : patI32 v < 2 ^ 32 := by
  rw [patI32]
  omega

theorem patI64_lt (v : Int) : patI64 v < 2 ^ 64 := by
  rw [patI64]
  omega

theorem toI32_patI32 {v : Int} (h1 : -(2 ^ 31) ≤ v) (h2 : v < 2 ^ 31) :
    toI32 (patI32 v) = v := by
  rw [toI32, patI32]
  split <;> omega

theorem toI64_patI64 {v : Int} (h1 : -(2 ^ 63) ≤ v) (h2 : v < 2 ^ 63) :
    toI64 (patI64 v) = v := by
  rw [toI64, patI64]
  split <;> omega

theorem parseStep_startTag {st : PState} {idx : Nat} {name : Str8}
    (Y : List Nat) (hk : idx < 2 ^ 16) (hget : st.dict.get? idx = some name)
    (hfok : flushOk st = true) :
    parseStep 1 (le2 idx ++ Y) st = .ok (emitStartTag st name, Y) := by
  rw [parseStep]
  norm_num
  rw [readNum_le2, Nat.mod_eq_of_lt hk]
  dsimp only
  rw [List.get?_eq_getElem?] at hget
  rw [hget]
  dsimp only
  rw [if_pos hfok]

theorem parseStep_endTag {st st' : PState} {idx : Nat} {name : Str8}
    (Y : List Nat) (hk : idx < 2 ^ 16) (hget : st.dict.get? idx = some name)
    (hfok : flushOk st = true) (hend : emitEndTag st = some st') :
    parseStep 2 (le2 idx ++ Y) st = .ok (st', Y) := by
  rw [parseStep]
  norm_num
  rw [readNum_le2, Nat.mod_eq_of_lt hk]
  dsimp only
  rw [List.get?_eq_getElem?] at hget
  rw [hget]
  dsimp only
  rw [if_pos hfok, hend]

theorem parseStep_data {st st' : PState} (d : Str8) (Y : List Nat)
    (hcs : st.charSize = 1) (hlen : d.length < 2 ^ 32)
    (hfok : flushOk st = true) (hw : writeData st d = some st') :
    parseStep 11 (le4 d.length ++ (d ++ Y)) st = .ok (st', Y) := by
  rw [parseStep]
  norm_num
  rw [hcs, readString_u32 d Y hlen]
  dsimp only
  rw [if_pos hfok, hw]

/-- The serializer's length side condition on one attribute value: string
payloads carry a `uint32_t` length prefix. -/
def attrLenOk : AttrValue → Bool
  | .s sv => decide (sv.length < 2 ^ 32)
  | _ => true

theorem parseStep_attr {st : PState} {n1 : Str8} {v : AttrValue}
    {abs : List Nat} (Y : List Nat)
    (hser : serAttr st.dict (n1, v) = some abs)
    (hcs : st.charSize = 1) (hin : st.helper.inTag = true)
    (hwf : attrValueWf v) (hlens : attrLenOk v = true)
    (hcnt : st.dict.length ≤ 2 ^ 16) :
    ∃ op pay, abs ++ Y = op :: pay ∧ parseStep op pay st
      = .ok ({ st with helper :=
          { st.helper with
              curAttrs := st.helper.curAttrs ++ [(n1, v)] } }, Y) := by
  rw [serAttr] at hser
  cases hl : lookupIdx st.dict n1 with
  | none => rw [hl] at hser; cases hser
  | some idx =>
    rw [hl] at hser
    dsimp only at hser
    obtain ⟨hget, hlt⟩ := lookupIdx_some hl
    rw [List.get?_eq_getElem?] at hget
    have hk : idx < 2 ^ 16 := lt_of_lt_of_le hlt hcnt
    have haddAttr : ∀ v' : AttrValue, addAttr st n1 v'
        = some { st with helper :=
            { st.helper with
                curAttrs := st.helper.curAttrs ++ [(n1, v')] } } := by
      intro v'
      rw [addAttr, if_pos hin]
    cases v with
    | b bv =>
      cases hser
      refine ⟨5, le2 idx ++ ((if bv then 1 else 0) :: Y), by simp, ?_⟩
      rw [parseStep]
      norm_num
      rw [readNum_le2, Nat.mod_eq_of_lt hk]
      dsimp only
      rw [hget]
      dsimp only
      rw [readNum_one]
      dsimp only
      rw [haddAttr]
      cases bv <;> simp
    | i32 iv =>
      cases hser
      rw [attrValueWf] at hwf
      refine ⟨4, le2 idx ++ (le4 (patI32 iv) ++ Y), by simp, ?_⟩
      rw [parseStep]
      norm_num
      rw [readNum_le2, Nat.mod_eq_of_lt hk]
      dsimp only
      rw [hget]
      dsimp only
      rw [readNum_le4, Nat.mod_eq_of_lt (patI32_lt iv)]
      dsimp only
      rw [toI32_patI32 hwf.1 hwf.2]
      rw [haddAttr]
    | u32 uv =>
      cases hser
      rw [attrValueWf] at hwf
      refine ⟨8, le2 idx ++ (le4 uv ++ Y), by simp, ?_⟩
      rw [parseStep]
      norm_num
      rw [readNum_le2, Nat.mod_eq_of_lt hk]
      dsimp only
      rw [hget]
      dsimp only
      rw [readNum_le4, Nat.mod_eq_of_lt hwf]
      dsimp only
      rw [haddAttr]
    | i64 iv =>
      cases hser
      rw [attrValueWf] at hwf
      refine ⟨7, le2 idx ++ (le8 (patI64 iv) ++ Y), by simp, ?_⟩
      rw [parseStep]
      norm_num
      rw [readNum_le2, Nat.mod_eq_of_lt hk]
      dsimp only
      rw [hget]
      dsimp only
      rw [readNum_le8, Nat.mod_eq_of_lt (patI64_lt iv)]
      dsimp only
      rw [toI64_patI64 hwf.1 hwf.2]
      rw [haddAttr]
    | szT sv =>
      rw [attrValueWf] at hwf
      exact hwf.elim
    | f32 bits =>
      cases hser
      rw [attrValueWf] at hwf
      refine ⟨9, le2 idx ++ (le4 bits ++ (le4 7 ++ Y)), by simp, ?_⟩
      rw [parseStep]
      norm_num
      rw [readNum_le2, Nat.mod_eq_of_lt hk]
      dsimp only
      rw [hget]
      dsimp only
      rw [readNum_le4, Nat.mod_eq_of_lt hwf]
      dsimp only
      rw [haddAttr]
      dsimp only
      rw [readBytes_le4]
    | f64 bits =>
      cases hser
      rw [attrValueWf] at hwf
      refine ⟨10, le2 idx ++ (le8 bits ++ (le4 19 ++ Y)), by simp, ?_⟩
      rw [parseStep]
      norm_num
      rw [readNum_le2, Nat.mod_eq_of_lt hk]
      dsimp only
      rw [hget]
      dsimp only
      rw [readNum_le8, Nat.mod_eq_of_lt hwf]
      dsimp only
      rw [haddAttr]
      dsimp only
      rw [readBytes_le4]
    | s sv =>
      cases hser
      rw [attrLenOk] at hlens
      refine ⟨3, le2 idx ++ (le4 sv.length ++ (sv ++ Y)), by simp, ?_⟩
      rw [parseStep]
      norm_num
      rw [readNum_le2, Nat.mod_eq_of_lt hk]
      dsimp only
      rw [hget]
      dsimp only
      rw [hcs, readString_u32 sv Y (by simpa using hlens)]
      dsimp only
      rw [haddAttr]
      simp [hcs]

theorem parseLoop_attrRun (attrs : List (Str8 × AttrValue)) :
    ∀ (st : PState) (Y bs : List Nat),
      serAttrs st.dict attrs = some bs →
      st.charSize = 1 → st.helper.inTag = true →
      (∀ a ∈ attrs, attrValueWf a.2) →
      (∀ a ∈ attrs, attrLenOk a.2 = true) →
      st.dict.length ≤ 2 ^ 16 →
      parseLoop (bs ++ Y) st = parseLoop Y
        { st with helper :=
            { st.helper with
                curAttrs := st.helper.curAttrs ++ attrs } } := by
  induction attrs with
  | nil =>
    intro st Y bs hser hcs hin hwf hlens hcnt
    rw [serAttrs] at hser
    cases hser
    simp
  | cons a rest ih =>
    intro st Y bs hser hcs hin hwf hlens hcnt
    rw [serAttrs] at hser
    cases ha : serAttr st.dict a with
    | none => rw [ha] at hser; cases hser
    | some abs =>
      rw [ha] at hser
      dsimp only at hser
      cases hr : serAttrs st.dict rest with
      | none => rw [hr] at hser; cases hser
      | some rbs =>
        rw [hr] at hser
        cases hser
        obtain ⟨na, va⟩ := a
        obtain ⟨op, pay, hshape, hstep⟩ := parseStep_attr (rbs ++ Y) ha hcs
          hin (hwf (na, va) (List.mem_cons_self _ _))
          (hlens (na, va) (List.mem_cons_self _ _)) hcnt
        rw [List.append_assoc, hshape, parseLoop_step hstep]
        have hih := ih { st with helper :=
            { st.helper with
                curAttrs := st.helper.curAttrs ++ [(na, va)] } }
          Y rbs (by simpa using hr) (by simpa using hcs) (by simpa using hin)
          (fun x hx => hwf x (List.mem_cons_of_mem _ hx))
          (fun x hx => hlens x (List.mem_cons_of_mem _ hx))
          (by simpa using hcnt)
        rw [hih]
        simp

/-- The `ParentIndex` a freshly opened node receives over a given stack:
its position among the current top's children. -/
def topIndex : List Frame → Nat
  | [] => 0
  | g :: _ => g.children.length

theorem emitStartTag_dict (st : PState) (name : Str8) :
    (emitStartTag st name).dict = st.dict := by
  rw [emitStartTag]
  simp [flushPending_dict]

theorem emitStartTag_charSize (st : PState) (name : Str8) :
    (emitStartTag st name).charSize = st.charSize := by
  rw [emitStartTag]
  simp [flushPending_charSize]

theorem emitStartTag_attrRun_state (st : PState) (tag : Str8)
    (attrs : List (Str8 × AttrValue)) :
    ({ (emitStartTag st tag) with helper :=
        { (emitStartTag st tag).helper with
            curAttrs := (emitStartTag st tag).helper.curAttrs ++ attrs } }
      : PState)
      = { (flushPending st) with helper := ⟨true, tag, attrs⟩ } := by
  rw [emitStartTag]
  simp

theorem flushPending_pending {u : PState} {tag : Str8}
    {attrs : List (Str8 × AttrValue)} (h : u.helper = ⟨true, tag, attrs⟩) :
    flushPending u
      = { u with
          helper := ⟨false, [], []⟩,
          stack := ⟨tag, attrs, [], topIndex u.stack, []⟩ :: u.stack,
          names := (attrs.map Prod.fst).foldl intern (intern u.names tag) } := by
  rw [flushPending, if_pos (by rw [h])]
  rw [sinkStart, h]
  cases hs : u.stack with
  | nil => simp [topIndex]
  | cons g gs => simp [topIndex]

theorem writeData_pending {u : PState} {tag : Str8}
    {attrs : List (Str8 × AttrValue)} (h : u.helper = ⟨true, tag, attrs⟩)
    (d : Str8) :
    writeData u d
      = some { u with
          helper := ⟨false, [], []⟩,
          stack := ⟨tag, attrs, d, topIndex u.stack, []⟩ :: u.stack,
          names := (attrs.map Prod.fst).foldl intern (intern u.names tag) } := by
  rw [writeData, flushPending_pending h, sinkData]

theorem afterNode_of_stack_nil {st : PState}
    (h : (flushPending st).stack = []) (n : PNode) :
    afterNode st n
      = { (flushPending st) with
          helper := ⟨false, [], []⟩,
          root := some n,
          names := internNode (flushPending st).names n } := by
  rw [afterNode]
  split
  · rfl
  · rename_i g2 gs2 hcons
    rw [hcons] at h
    cases h

theorem endTag_after_children {st stc : PState} {tag : Str8}
    {attrs : List (Str8 × AttrValue)} {data : Str8} {children : List PNode}
    {p tagIdx : Nat} (Y : List Nat) (hfokc : flushOk stc = true)
    (hfpc : flushPending stc
      = { (flushPending st) with
          helper := ⟨false, [], []⟩,
          stack := ⟨tag, attrs, data, topIndex (flushPending st).stack, []⟩
            :: (flushPending st).stack,
          names := (attrs.map Prod.fst).foldl intern
            (intern (flushPending st).names tag) })
    (hcleanc : helperClean stc) (hdict : stc.dict = st.dict)
    (hget : st.dict.get? tagIdx = some tag) (hk : tagIdx < 2 ^ 16)
    (hp : p = topIndex (flushPending st).stack) :
    parseLoop (2 :: (le2 tagIdx ++ Y)) (afterNodes stc children)
      = parseLoop Y (afterNode st (.mk tag attrs data p children)) := by
  have hstackc : (flushPending stc).stack
      = (⟨tag, attrs, data, topIndex (flushPending st).stack, []⟩ : Frame)
        :: (flushPending st).stack := by
    rw [hfpc]
  have hfa := flushPending_afterNodes children stc _ _ hcleanc hstackc
  rw [hfpc] at hfa
  have hdicte : (afterNodes stc children).dict = st.dict := by
    rw [afterNodes_dict, hdict]
  have hgete : (afterNodes stc children).dict.get? tagIdx = some tag := by
    rw [hdicte]
    exact hget
  cases hrs : (flushPending st).stack with
  | nil =>
    rw [hrs] at hfa hp
    simp only [topIndex] at hfa hp
    have hend : emitEndTag (afterNodes stc children)
        = some { (flushPending st) with
            helper := ⟨false, [], []⟩,
            stack := [],
            root := some (.mk tag attrs data 0 children),
            names := internNodes ((attrs.map Prod.fst).foldl intern
              (intern (flushPending st).names tag)) children } := by
      rw [emitEndTag, hfa, sinkEnd]
      simp [Frame.toNode]
    rw [parseLoop_step (parseStep_endTag Y hk hgete
      (flushOk_afterNodes children stc hfokc) hend)]
    rw [afterNode_of_stack_nil hrs]
    rw [internNode]
    rw [hp]
    simp only [hrs]
  | cons g gs =>
    rw [hrs] at hfa hp
    simp only [topIndex] at hfa hp
    have hend : emitEndTag (afterNodes stc children)
        = some { (flushPending st) with
            helper := ⟨false, [], []⟩,
            stack := { g with children := g.children
              ++ [.mk tag attrs data g.children.length children] } :: gs,
            names := internNodes ((attrs.map Prod.fst).foldl intern
              (intern (flushPending st).names tag)) children } := by
      rw [emitEndTag, hfa, sinkEnd]
      simp [Frame.toNode]
    rw [parseLoop_step (parseStep_endTag Y hk hgete
      (flushOk_afterNodes children stc hfokc) hend)]
    rw [afterNode_of_stack_cons hrs]
    rw [internNode]
    rw [hp]

theorem attrLenOk_of_all {attrs : List (Str8 × AttrValue)}
    (h : attrs.all (fun a => match a.2 with
      | .s v => decide (v.length < 2 ^ 32)
      | _ => true) = true) :
    ∀ a ∈ attrs, attrLenOk a.2 = true := by
  intro a ha
  have h2 := List.all_eq_true.mp h a ha
  cases hv : a.2 <;> rw [hv] at h2 <;> simpa [attrLenOk] using h2

mutual

theorem parseLoop_serNode (n : PNode) :
    ∀ (st : PState) (Y bs : List Nat),
      serNode st.dict n = some bs →
      st.charSize = 1 → st.dict.length ≤ 2 ^ 16 → helperClean st →
      flushOk st = true →
      treeDom (stackCtx (flushPending st).stack) n = true →
      treeWf n → treeLens n = true →
      n.parentIndex = topIndex (flushPending st).stack →
      parseLoop (bs ++ Y) st = parseLoop Y (afterNode st n) := by
  intro st Y bs hser hcs hcnt hclean hfok hdom hwf hlens hp
  obtain ⟨tag, attrs, data, p, children⟩ := n
  rw [serNode] at hser
  rw [treeWf] at hwf
  rw [treeDom] at hdom
  simp only [Bool.and_eq_true] at hdom
  obtain ⟨hso, hcdom⟩ := hdom
  rw [treeLens] at hlens
  simp only [Bool.and_eq_true] at hlens
  obtain ⟨⟨hattrL, hdataL⟩, hchildL⟩ := hlens
  cases hl : lookupIdx st.dict tag with
  | none => rw [hl] at hser; cases hser
  | some tagIdx =>
    rw [hl] at hser
    dsimp only at hser
    cases hA : serAttrs st.dict attrs with
    | none => rw [hA] at hser; cases hser
    | some attrBytes =>
      rw [hA] at hser
      dsimp only at hser
      cases hC : serNodes st.dict children with
      | none => rw [hC] at hser; cases hser
      | some childBytes =>
        rw [hC] at hser
        dsimp only at hser
        cases hser
        obtain ⟨hget, hlt⟩ := lookupIdx_some hl
        have hk : tagIdx < 2 ^ 16 := lt_of_lt_of_le hlt hcnt
        rw [show (1 :: le2 tagIdx ++ attrBytes ++
            (if data.isEmpty then []
             else 11 :: le4 data.length ++ data) ++ childBytes ++
            2 :: le2 tagIdx) ++ Y
          = 1 :: (le2 tagIdx ++ (attrBytes ++
            ((if data.isEmpty then []
              else 11 :: le4 data.length ++ data) ++ (childBytes ++
            (2 :: (le2 tagIdx ++ Y)))))) from by simp]
        rw [parseLoop_step (parseStep_startTag _ hk hget hfok)]
        rw [parseLoop_attrRun attrs (emitStartTag st tag) _ attrBytes
          (by rw [emitStartTag_dict]; exact hA)
          (by rw [emitStartTag_charSize]; exact hcs)
          rfl hwf.1 (attrLenOk_of_all hattrL)
          (by rw [emitStartTag_dict]; exact hcnt)]
        rw [emitStartTag_attrRun_state]
        have hfoku : flushOk ({ (flushPending st) with
            helper := ⟨true, tag, attrs⟩ } : PState) = true := by
          rw [flushOk]
          simpa using hso
        by_cases hde : data.isEmpty
        · have hdata : data = [] := List.isEmpty_iff.mp hde
          subst hdata
          simp only [List.isEmpty_nil, if_true, List.nil_append]
          rw [parseLoop_serNodes children
            { (flushPending st) with helper := ⟨true, tag, attrs⟩ }
            (2 :: (le2 tagIdx ++ Y)) childBytes
            ⟨tag, attrs, [],
              topIndex ({ (flushPending st) with
                helper := ⟨true, tag, attrs⟩ } : PState).stack, []⟩
            ({ (flushPending st) with
                helper := ⟨true, tag, attrs⟩ } : PState).stack
            (by rw [show ({ (flushPending st) with
                helper := ⟨true, tag, attrs⟩ } : PState).dict
                = st.dict from flushPending_dict st]; exact hC)
            (by rw [show ({ (flushPending st) with
                helper := ⟨true, tag, attrs⟩ } : PState).charSize
                = st.charSize from flushPending_charSize st]; exact hcs)
            (by rw [show ({ (flushPending st) with
                helper := ⟨true, tag, attrs⟩ } : PState).dict
                = st.dict from flushPending_dict st]; exact hcnt)
            (by intro hx; simp at hx)
            hfoku
            (by rw [flushPending_pending rfl])
            hcdom
            hwf.2 hchildL]
          exact endTag_after_children Y hfoku
            (by rw [flushPending_pending rfl])
            (by intro hx; simp at hx)
            (flushPending_dict st) hget hk hp
        · rw [if_neg hde]
          rw [show (11 :: le4 data.length ++ data) ++ (childBytes ++
              (2 :: (le2 tagIdx ++ Y)))
            = 11 :: (le4 data.length ++ (data ++ (childBytes ++
              (2 :: (le2 tagIdx ++ Y))))) from by simp]
          rw [parseLoop_step (parseStep_data data _
            (by rw [show ({ (flushPending st) with
                helper := ⟨true, tag, attrs⟩ } : PState).charSize
                = st.charSize from flushPending_charSize st]; exact hcs)
            (by simpa using hdataL)
            hfoku
            (writeData_pending rfl data))]
          rw [parseLoop_serNodes children
            { ({ (flushPending st) with
                  helper := ⟨true, tag, attrs⟩ } : PState) with
                helper := ⟨false, [], []⟩,
                stack := ⟨tag, attrs, data,
                  topIndex ({ (flushPending st) with
                    helper := ⟨true, tag, attrs⟩ } : PState).stack, []⟩
                  :: ({ (flushPending st) with
                    helper := ⟨true, tag, attrs⟩ } : PState).stack,
                names := (attrs.map Prod.fst).foldl intern
                  (intern ({ (flushPending st) with
                    helper := ⟨true, tag, attrs⟩ } : PState).names tag) }
            (2 :: (le2 tagIdx ++ Y)) childBytes
            ⟨tag, attrs, data, topIndex (flushPending st).stack, []⟩
            (flushPending st).stack
            (by rw [show (({ (flushPending st) with
                helper := ⟨true, tag, attrs⟩ } : PState)).dict
                = st.dict from flushPending_dict st]; exact hC)
            (by rw [show (({ (flushPending st) with
                helper := ⟨true, tag, attrs⟩ } : PState)).charSize
                = st.charSize from flushPending_charSize st]; exact hcs)
            (by rw [show (({ (flushPending st) with
                helper := ⟨true, tag, attrs⟩ } : PState)).dict
                = st.dict from flushPending_dict st]; exact hcnt)
            (fun _ => rfl)
            (flushOk_of_not_inTag rfl)
            (by rw [flushPending_of_not_inTag rfl])
            hcdom
            hwf.2 hchildL]
          exact endTag_after_children Y (flushOk_of_not_inTag rfl)
            (by rw [flushPending_of_not_inTag rfl])
            (fun _ => rfl) (flushPending_dict st) hget hk hp

theorem parseLoop_serNodes (ns : List PNode) :
    ∀ (st : PState) (Y bs : List Nat) (f : Frame) (rs : List Frame),
      serNodes st.dict ns = some bs →
      st.charSize = 1 → st.dict.length ≤ 2 ^ 16 → helperClean st →
      flushOk st = true →
      (flushPending st).stack = f :: rs →
      treesDom (some (tagKind f.tagName)) ns = true →
      treesWf f.children.length ns → treeLensList ns = true →
      parseLoop (bs ++ Y) st = parseLoop Y (afterNodes st ns) := by
  intro st Y bs f rs hser hcs hcnt hclean hfok hstack hdom htw hlens
  cases ns with
  | nil =>
    rw [serNodes] at hser
    cases hser
    simp [afterNodes]
  | cons n ns2 =>
    rw [serNodes] at hser
    cases hnb : serNode st.dict n with
    | none => rw [hnb] at hser; cases hser
    | some nb =>
      rw [hnb] at hser
      dsimp only at hser
      cases hnbs : serNodes st.dict ns2 with
      | none => rw [hnbs] at hser; cases hser
      | some nbs =>
        rw [hnbs] at hser
        cases hser
        rw [treesWf] at htw
        obtain ⟨hp1, hwf1, htw2⟩ := htw
        rw [treesDom] at hdom
        simp only [Bool.and_eq_true] at hdom
        obtain ⟨hdn, hdns⟩ := hdom
        rw [treeLensList] at hlens
        simp only [Bool.and_eq_true] at hlens
        rw [List.append_assoc]
        rw [parseLoop_serNode n st (nbs ++ Y) nb hnb hcs hcnt hclean hfok
          (by rw [hstack]; exact hdn) hwf1
          hlens.1 (by rw [hstack, topIndex]; exact hp1)]
        rw [show afterNodes st (n :: ns2)
          = afterNodes (afterNode st n) ns2 from rfl]
        exact parseLoop_serNodes ns2 (afterNode st n) Y nbs
          { f with children := f.children ++ [n] } rs
          (by rw [afterNode_dict]; exact hnbs)
          (by rw [afterNode_charSize]; exact hcs)
          (by rw [afterNode_dict]; exact hcnt)
          (afterNode_helperClean st n)
          (flushOk_of_not_inTag (afterNode_inTag st n))
          (by rw [flushPending_of_not_inTag (afterNode_inTag st n),
            afterNode_of_stack_cons hstack])
          hdns
          (by simpa using htw2) hlens.2

end

theorem lookupIdx_isSome {names : List Str8} {s : Str8} (h : s ∈ names) :
    ∃ i, lookupIdx names s = some i := by
  induction names with
  | nil => cases h
  | cons n ns ih =>
    rw [lookupIdx]
    by_cases he : n = s
    · exact ⟨0, by rw [if_pos he]⟩
    · have hm : s ∈ ns := by
        rcases List.mem_cons.mp h with h2 | h2
        · exact absurd h2.symm he
        · exact h2
      obtain ⟨i, hi⟩ := ih hm
      exact ⟨i + 1, by rw [if_neg he, hi]; rfl⟩

theorem serAttrs_isSome {names : List Str8}
    (attrs : List (Str8 × AttrValue)) (h : ∀ a ∈ attrs, a.1 ∈ names) :
    ∃ bs, serAttrs names attrs = some bs := by
  induction attrs with
  | nil => exact ⟨[], rfl⟩
  | cons a rest ih =>
    obtain ⟨i, hi⟩ := lookupIdx_isSome (h a (List.mem_cons_self _ _))
    obtain ⟨bs2, hbs2⟩ := ih (fun x hx => h x (List.mem_cons_of_mem _ hx))
    refine Option.isSome_iff_exists.mp ?_
    rw [serAttrs, serAttr, hi]
    dsimp only
    rw [hbs2]
    rfl

mutual

theorem serNode_isSome (n : PNode) :
    ∀ names : List Str8, (∀ s ∈ treeNames n, s ∈ names) →
      ∃ bs, serNode names n = some bs := by
  intro names h
  obtain ⟨tag, attrs, data, p, children⟩ := n
  rw [treeNames] at h
  obtain ⟨i, hi⟩ := lookupIdx_isSome (h tag (by simp))
  obtain ⟨abs, habs⟩ := serAttrs_isSome attrs (fun a ha => h a.1 (by
    have hmap : a.1 ∈ List.map Prod.fst attrs :=
      List.mem_map_of_mem Prod.fst ha
    simp only [List.mem_cons, List.mem_append]
    tauto))
  obtain ⟨cbs, hcbs⟩ := serNodes_isSome children names (fun s hs => h s (by
    simp only [List.mem_cons, List.mem_append]
    tauto))
  refine Option.isSome_iff_exists.mp ?_
  rw [serNode, hi]
  dsimp only
  rw [habs]
  dsimp only
  rw [hcbs]
  rfl

theorem serNodes_isSome (ns : List PNode) :
    ∀ names : List Str8, (∀ s ∈ treeNamesList ns, s ∈ names) →
      ∃ bs, serNodes names ns = some bs := by
  intro names h
  cases ns with
  | nil => exact ⟨[], rfl⟩
  | cons n ns2 =>
    rw [treeNamesList] at h
    obtain ⟨nb, hnb⟩ := serNode_isSome n names (fun s hs => h s (by
      simp only [List.mem_append]
      tauto))
    obtain ⟨nbs, hnbs⟩ := serNodes_isSome ns2 names (fun s hs => h s (by
      simp only [List.mem_append]
      tauto))
    refine Option.isSome_iff_exists.mp ?_
    rw [serNodes, hnb]
    dsimp only
    rw [hnbs]
    rfl

end

/-- C8: `IdsLookup::store` on an already-defined id only works for the
last entry (`index + 1 = size`, plain replacement) or an append
(`index = size`).  For any already-defined id with `index + 1 < size` the
code first `resize(index)`s the vector (shrinking it below the index) and
then writes `mIds[index]` out of bounds — undefined behaviour, modelled as
`none` — so redefining such an entry does not work; a document carrying
such a `Name` record fails instead of updating the dictionary. -/
theorem idsStore_redefine_bug :
    (∀ (ids : List Str8) (value : Str8), ids ≠ [] →
      idsStore ids (ids.length - 1) value
        = some (ids.set (ids.length - 1) value)) ∧
    (∀ (ids : List Str8) (index : Nat) (value : Str8),
      index + 1 < ids.length → idsStore ids index value = none) ∧
    parse [0, 1, 15, 0, 0, 1, 0, 97, 15, 1, 0, 1, 0, 98, 15, 0, 0, 1, 0, 100]
      = .error .malformed := by
  refine ⟨?_, ?_, ?_⟩
  · intro ids value hne
    have hlen : 0 < ids.length := List.length_pos.mpr hne
    rw [idsStore, if_neg (by omega), if_pos (by omega)]
  · intro ids index value hlt
    rw [idsStore, if_neg (by omega), if_neg (by omega)]
  · simp [parse, parseLoop, parseStep, readNum, readBytes, leNat, readString,
      idsStore, initState]

theorem idsStore_redefine_bug_witness :
    ([[97], [98]] : List Str8) ≠ [] ∧
    idsStore [[97], [98]] 1 [100] = some [[97], [100]] ∧
    0 + 1 < 3 ∧
    idsStore [[97], [98], [99]] 0 [100] = none :=
  ⟨by decide,
    by
      have h := idsStore_redefine_bug.1 [[97], [98]] [100] (by decide)
      simpa using h,
    by decide,
    idsStore_redefine_bug.2.1 [[97], [98], [99]] 0 [100] (by decide)⟩

/-- `ProjectTreeNode::setAttribute`: overwrite the value of the first
attribute with the given name, else append a new attribute. -/
def setAttr (attrs : List (Str8 × AttrValue)) (name : Str8)
    (v : AttrValue) : List (Str8 × AttrValue) :=
  match attrs with
  | [] => [(name, v)]
  | a :: rest => if a.1 = name then (a.1, v) :: rest
      else a :: setAttr rest name v

def setAttrNode (n : PNode) (name : Str8) (v : AttrValue) : PNode :=
  .mk n.tagName (setAttr n.attrs name v) n.data n.parentIndex n.children

/-- `WaveBlock::convertToSilence` as it acts on the tree node, with `L`
the block's derived length (`getLength()` at call time): set `blockid` to
`-L` (an `int64_t`) and `badblock` to `true`. -/
def convertToSilenceNode (L : Int) (n : PNode) : PNode :=
  setAttrNode (setAttrNode n strBlockid (.i64 (-L))) strBadblock (.b true)

theorem convertToSilenceNode_children (L : Int) (m : PNode) :
    (convertToSilenceNode L m).children = m.children := by
  obtain ⟨tg, at2, dt, p, ch⟩ := m
  rfl

